import Mathlib

/-!
# balances.c: block validation, chain tree, chain selection

A shallow embedding of `src/balances.c`.

* A 32-byte value (`hash_output`, a curve coordinate, a signature element) is the natural
  number its bytes spell in big-endian order, so `memcmp` order is numeric order.
* The collaborators declared in `block.h`, `transaction.h`, `common.h` and libc
  (`block_hash`, `transaction_hash`, `hash_output_is_below_target`, `transaction_verify`,
  `qsort`) are the fields of `Env`; every theorem holds for every `Env`.
* `blocknodes` is an arena (a list of slots); a `struct blockchain_node *` is `none` (NULL)
  or `some p` (`&blocknodes[p]`).  `malloc` does not initialise memory, so the arena starts
  with arbitrary contents `uninit`.
* Loops that follow `parent` pointers take fuel, the arena length.  A walk that reaches NULL
  meets no slot twice, so it never needs more (`chain_from_arena_fuel`): `Run.loops`, the
  result when the fuel runs out, stands for a loop that does not end.  `Run.undefined` is the
  result when the C code accesses memory outside an array.
* Heights are natural numbers; the conversions to `int` in `main` are taken without
  overflow.  Reading the block files (and the exit on a read error) is outside the model:
  `main` starts from the array `blocks`.
-/

set_option autoImplicit false
set_option linter.dupNamespace false

namespace Balances

/-! ## Data model -/

/-- A 32-byte big-endian value, read as a number. -/
abbrev byte32 := Nat

/-- The type `hash_output` of `common.h`. -/
abbrev hash_output := byte32

/-- Modelled from the spec: `byte32_cmp` is declared in `common.h`, which is not under `src/`;
it compares two 32-byte values like `memcmp` and is 0 exactly on equal values. -/
def byte32_cmp (a b : byte32) : Int :=
  if a < b then -1 else if b < a then 1 else 0

/-- Modelled from the spec: `byte32_is_zero` is declared in `common.h`, which is not under
`src/`; it tells whether all 32 bytes are zero (the all-zero sentinel). -/
def byte32_is_zero (a : byte32) : Bool :=
  decide (a = 0)

/-- The constant `GENESIS_BLOCK_HASH`. -/
def GENESIS_BLOCK_HASH : hash_output :=
  0x0000000e5ac98c789800702ad2a6f3ca510d409d6cca892ed1c75198e04bdeec

/-- The type `struct ecdsa_pubkey`, as far as the code uses it. -/
structure ecdsa_pubkey where
  x : byte32
  y : byte32
  deriving DecidableEq, Repr

/-- The signature member `src_signature` of a transaction. -/
structure ecdsa_signature where
  r : byte32
  s : byte32
  deriving DecidableEq, Repr

/-- The type `struct transaction`, as far as the code uses it. -/
structure transaction where
  height : Nat
  prev_transaction_hash : hash_output
  dest_pubkey : ecdsa_pubkey
  src_signature : ecdsa_signature
  deriving DecidableEq, Repr

/-- The type `struct block`, as far as the code uses it. -/
structure block where
  height : Nat
  prev_block_hash : hash_output
  reward_tx : transaction
  normal_tx : transaction
  deriving DecidableEq, Repr

/-- The type `struct blockchain_node`.  `parent` is NULL (`none`) or the address of a slot
of `blocknodes`; `is_valid` is the C `int` flag, which the code only ever sets to 0 or 1
and only ever tests against zero. -/
structure blockchain_node where
  parent : Option Nat
  b : block
  is_valid : Bool
  deriving DecidableEq, Repr

/-- The type `struct balance` without its `next` pointer: one entry of the balance list.
The field `balance` is a C `int`: an integer between -2^31 and 2^31 - 1, see `is_int` and
`int_wrap`. -/
structure balance where
  pubkey : ecdsa_pubkey
  balance : Int
  deriving DecidableEq, Repr

/-- The functions the code calls but does not define. -/
structure Env where
  block_hash : block → hash_output
  transaction_hash : transaction → hash_output
  hash_output_is_below_target : hash_output → Bool
  transaction_verify : transaction → transaction → Int
  qsort : (block → block → Int) → List block → List block

/-- How a piece of the program ends. -/
inductive Run (α : Type) where
  | done : α → Run α
  | undefined : Run α
  | loops : Run α
  deriving DecidableEq, Repr

/-! ## The functions of balances.c -/

/-- The function `compare_by_height`. -/
def compare_by_height (b1 b2 : block) : Int :=
  if b1.height < b2.height then -1
  else if b1.height > b2.height then 1
  else 0

/-- The function `valid_block_before_tree`. -/
def valid_block_before_tree (env : Env) (b : block) : Int :=
  let h := env.block_hash b
  if (if b.height = 0 then byte32_cmp h GENESIS_BLOCK_HASH != 0
      else !env.hash_output_is_below_target h) then 0
  else if b.height != b.reward_tx.height || b.height != b.normal_tx.height then 0
  else if !byte32_is_zero b.reward_tx.prev_transaction_hash
      || !byte32_is_zero b.reward_tx.src_signature.r
      || !byte32_is_zero b.reward_tx.src_signature.s then 0
  else 1

/-- The first loop of `valid_node_after_tree`: starting at `ancestor`, look for the first
node whose `reward_tx` (tried first) or `normal_tx` has transaction hash `prev`.  The result
is `previous_transaction` when `found` is 1 and `none` when the walk reaches NULL. -/
def find_previous_transaction (env : Env) (blocknodes : List blockchain_node)
    (prev : hash_output) : Nat → Option Nat → Run (Option transaction)
  | _, none => .done none
  | 0, some _ => .loops
  | fuel + 1, some a =>
    match blocknodes[a]? with
    | none => .undefined
    | some ancestor =>
      if byte32_cmp prev (env.transaction_hash ancestor.b.reward_tx) = 0 then
        .done (some ancestor.b.reward_tx)
      else if byte32_cmp prev (env.transaction_hash ancestor.b.normal_tx) = 0 then
        .done (some ancestor.b.normal_tx)
      else find_previous_transaction env blocknodes prev fuel ancestor.parent

/-- The second loop of `valid_node_after_tree`: `true` when it returns 0 inside the loop
(an ancestor spends the same transaction), `false` when the walk reaches NULL. -/
def already_spent (blocknodes : List blockchain_node) (prev : hash_output) :
    Nat → Option Nat → Run Bool
  | _, none => .done false
  | 0, some _ => .loops
  | fuel + 1, some a =>
    match blocknodes[a]? with
    | none => .undefined
    | some ancestor =>
      if byte32_cmp prev ancestor.b.normal_tx.prev_transaction_hash = 0 then .done true
      else already_spent blocknodes prev fuel ancestor.parent

/-- The function `valid_node_after_tree`, with the fuel for its two walks. -/
def valid_node_after_tree_fuel (env : Env) (blocknodes : List blockchain_node) (fuel : Nat)
    (node : blockchain_node) : Run Int :=
  if !byte32_is_zero node.b.normal_tx.prev_transaction_hash then
    match find_previous_transaction env blocknodes node.b.normal_tx.prev_transaction_hash
        fuel node.parent with
    | .undefined => .undefined
    | .loops => .loops
    | .done none => .done 0
    | .done (some previous_transaction) =>
      if env.transaction_verify node.b.normal_tx previous_transaction = 1 then
        match already_spent blocknodes node.b.normal_tx.prev_transaction_hash
            fuel node.parent with
        | .undefined => .undefined
        | .loops => .loops
        | .done true => .done 0
        | .done false => .done 1
      else .done 0
  else .done 1

/-- The function `valid_node_after_tree` on a node whose ancestors live in `blocknodes`. -/
def valid_node_after_tree (env : Env) (blocknodes : List blockchain_node)
    (node : blockchain_node) : Run Int :=
  valid_node_after_tree_fuel env blocknodes blocknodes.length node

/-- The loop of `parentnode_of_block`, at counter `i` with `n` iterations left. -/
def parentnode_of_block_from (env : Env) (b : block) (blocknodes : List blockchain_node) :
    Nat → Nat → Run Int
  | _, 0 => .done (-1)
  | i, n + 1 =>
    match blocknodes[i]? with
    | none => .undefined
    | some node =>
      if byte32_cmp (env.block_hash node.b) b.prev_block_hash = 0 then .done (Int.ofNat i)
      else parentnode_of_block_from env b blocknodes (i + 1) n

/-- The function `parentnode_of_block`. -/
def parentnode_of_block (env : Env) (b : block) (blocknodes : List blockchain_node)
    (maximum : Nat) : Run Int :=
  parentnode_of_block_from env b blocknodes 0 maximum

/-- The tree-building loop of `main` (lines 244-274), from the state where `blocks[i..]` is
still to be processed, the arena is `blocknodes` and `vblockc` nodes are admitted.  Returns
the arena and the final `vblockc`. -/
def build_tree_from (env : Env) :
    List block → Nat → List blockchain_node → Nat → Run (List blockchain_node × Nat)
  | [], _, blocknodes, vblockc => .done (blocknodes, vblockc)
  | b :: rest, i, blocknodes, vblockc =>
    if valid_block_before_tree env b ≠ 0 then
      if b.height = 0 then
        build_tree_from env rest (i + 1) (blocknodes.set vblockc ⟨none, b, true⟩) (vblockc + 1)
      else
        match parentnode_of_block env b blocknodes i with
        | .undefined => .undefined
        | .loops => .loops
        | .done parent_index =>
          if parent_index = -1 then
            build_tree_from env rest (i + 1)
              (blocknodes.set vblockc ⟨none, b, false⟩) (vblockc + 1)
          else
            build_tree_from env rest (i + 1)
              (blocknodes.set vblockc ⟨some parent_index.toNat, b, true⟩) (vblockc + 1)
    else build_tree_from env rest (i + 1) blocknodes vblockc

/-- The ancestry-validation loop of `main` (lines 278-283), at counter `i` with `n`
iterations left. -/
def validate_nodes_from (env : Env) : Nat → Nat → List blockchain_node →
    Run (List blockchain_node)
  | 0, _, blocknodes => .done blocknodes
  | n + 1, i, blocknodes =>
    match blocknodes[i]? with
    | none => .undefined
    | some blocknode =>
      match valid_node_after_tree env blocknodes blocknode with
      | .undefined => .undefined
      | .loops => .loops
      | .done r =>
        validate_nodes_from env n (i + 1)
          (if r = 0 then blocknodes.set i { blocknode with is_valid := false } else blocknodes)

/-- The inner `while (node)` loop of the selection (lines 291-296): the final value of
`valid`, started at `valid`. -/
def path_is_valid (blocknodes : List blockchain_node) : Nat → Option Nat → Bool → Run Bool
  | _, none, valid => .done valid
  | 0, some _, _ => .loops
  | fuel + 1, some n, valid =>
    match blocknodes[n]? with
    | none => .undefined
    | some node =>
      path_is_valid blocknodes fuel node.parent (if !node.is_valid then false else valid)

/-- The selection loop of `main` (lines 287-301) with `leaf_idx + 1` given as the argument;
the result is the value of `leaf_idx` after the loop, -1 when no path is accepted. -/
def select_leaf (blocknodes : List blockchain_node) : Nat → Run Int
  | 0 => .done (-1)
  | leaf_idx + 1 =>
    match path_is_valid blocknodes blocknodes.length (some leaf_idx) true with
    | .undefined => .undefined
    | .loops => .loops
    | .done valid => if valid then .done (Int.ofNat leaf_idx) else select_leaf blocknodes leaf_idx

/-- The chain-filling loop of `main` (lines 309-313).  A slot of `longest_chain` is `none`
until it is written (`malloc` leaves it uninitialised). -/
def fill_chain (blocknodes : List blockchain_node) :
    Nat → Option Nat → Int → List (Option blockchain_node) →
    Run (List (Option blockchain_node))
  | _, none, _, longest_chain => .done longest_chain
  | 0, some _, _, _ => .loops
  | fuel + 1, some n, chain_idx, longest_chain =>
    match blocknodes[n]? with
    | none => .undefined
    | some node =>
      if 0 ≤ chain_idx ∧ chain_idx < longest_chain.length then
        fill_chain blocknodes fuel node.parent (chain_idx - 1)
          (longest_chain.set chain_idx.toNat (some node))
      else .undefined

/-- The arena after tree building and ancestry validation, with `vblockc`.  `qsort` works in
place, so the sorted array keeps the length `blockc`; `uninit i` is what `malloc` left in
slot `i` of `blocknodes`. -/
def validated_tree (env : Env) (uninit : Nat → blockchain_node) (input : List block) :
    Run (List blockchain_node × Nat) :=
  let blocks := env.qsort compare_by_height input
  let blockc := blocks.length
  match build_tree_from env blocks 0 ((List.range blockc).map uninit) 0 with
  | .undefined => .undefined
  | .loops => .loops
  | .done (blocknodes, vblockc) =>
    match validate_nodes_from env vblockc 0 blocknodes with
    | .undefined => .undefined
    | .loops => .loops
    | .done blocknodes => .done (blocknodes, vblockc)

/-- The array `longest_chain` of `main` for the leaf `leaf_idx`: reading
`blocknodes[leaf_idx]` is an out-of-bounds access when `leaf_idx` is -1. -/
def build_chain (blocknodes : List blockchain_node) (leaf_idx : Int) :
    Run (List (Option blockchain_node)) :=
  if leaf_idx < 0 then .undefined
  else
    match blocknodes[leaf_idx.toNat]? with
    | none => .undefined
    | some leaf =>
      let chain_height : Int := leaf.b.height
      let chain_length := leaf.b.height + 1
      fill_chain blocknodes blocknodes.length (some leaf_idx.toNat) chain_height
        (List.replicate chain_length none)

/-- What a run of `main` that reaches `return 0` has written: the blocks given to
`block_print` (`none` for a slot of `longest_chain` that was never written), the entries of
the balance table, and the exit status. -/
structure Output where
  printed : List (Option block)
  balances : List balance
  status : Int
  deriving DecidableEq, Repr

/-- The array `longest_chain` as `main` leaves it after line 313. -/
def longest_chain (env : Env) (uninit : Nat → blockchain_node) (input : List block) :
    Run (List (Option blockchain_node)) :=
  match validated_tree env uninit input with
  | .undefined => .undefined
  | .loops => .loops
  | .done (blocknodes, vblockc) =>
    match select_leaf blocknodes vblockc with
    | .undefined => .undefined
    | .loops => .loops
    | .done leaf_idx => build_chain blocknodes leaf_idx

/-- The function `main` after the blocks are read: `input` is the array `blocks` as read
from the files.  The balance list stays `NULL`: `balance_add` is never called. -/
def main (env : Env) (uninit : Nat → blockchain_node) (input : List block) : Run Output :=
  match longest_chain env uninit input with
  | .undefined => .undefined
  | .loops => .loops
  | .done chain => .done ⟨chain.map (fun slot => slot.map (fun node => node.b)), [], 0⟩

/-- The values of the C type `int`, 32 bits wide in two's complement. -/
def is_int (x : Int) : Prop := -2147483648 ≤ x ∧ x ≤ 2147483647

instance (x : Int) : Decidable (is_int x) :=
  inferInstanceAs (Decidable (-2147483648 ≤ x ∧ x ≤ 2147483647))

/-- The value an `int` holds after an addition whose exact result is `x`: `x` itself when
it lies between -2^31 and 2^31 - 1, and otherwise `x` reduced modulo 2^32 into that range,
which is what the addition of the compiled program leaves (the C standard does not define
the overflow of `int`). -/
def int_wrap (x : Int) : Int := (x + 2147483648) % 4294967296 - 2147483648

/-- The function `balance_add`, when the key is already in the list: the list with the first
entry for `pubkey` changed by `p->balance += amount`, an addition of two `int`s, or `none`
when the loop finds no such entry. -/
def balance_add_found : List balance → ecdsa_pubkey → Int → Option (List balance)
  | [], _, _ => none
  | p :: rest, pubkey, amount =>
    if byte32_cmp p.pubkey.x pubkey.x = 0 ∧ byte32_cmp p.pubkey.y pubkey.y = 0 then
      some ({ p with balance := int_wrap (p.balance + amount) } :: rest)
    else (balance_add_found rest pubkey amount).map (fun l => p :: l)

/-- The function `balance_add`, with `malloc` succeeding; `amount` is an `int`. -/
def balance_add (balances : List balance) (pubkey : ecdsa_pubkey) (amount : Int) :
    List balance :=
  match balance_add_found balances pubkey amount with
  | some updated => updated
  | none => ⟨pubkey, amount⟩ :: balances

/-! ## Notions the claims speak of -/

/-- The nodes met from the pointer `p` along the `parent` references until NULL, nearest
first. -/
def chain_from (blocknodes : List blockchain_node) :
    Nat → Option Nat → Run (List blockchain_node)
  | _, none => .done []
  | 0, some _ => .loops
  | fuel + 1, some n =>
    match blocknodes[n]? with
    | none => .undefined
    | some node =>
      match chain_from blocknodes fuel node.parent with
      | .done rest => .done (node :: rest)
      | .undefined => .undefined
      | .loops => .loops

/-- The slots `idxs` are those met from the pointer `p` along the parent references until
NULL. -/
def is_walk (blocknodes : List blockchain_node) : Option Nat → List Nat → Prop
  | none, [] => True
  | some n, m :: rest =>
    n = m ∧ ∃ node, blocknodes[n]? = some node ∧ is_walk blocknodes node.parent rest
  | none, _ :: _ => False
  | some _, [] => False

/-- The parent path of slot `k`: the node itself up to and including its root. -/
def parent_path (blocknodes : List blockchain_node) (k : Nat) : Run (List blockchain_node) :=
  chain_from blocknodes blocknodes.length (some k)

/-- The strict ancestors of a node: parent, grandparent, and so on up to the root. -/
def ancestors (blocknodes : List blockchain_node) (node : blockchain_node) :
    Run (List blockchain_node) :=
  chain_from blocknodes blocknodes.length node.parent

/-- Slot `k` has a parent path that reaches a root and carries `is_valid = 1` throughout. -/
def fully_valid (blocknodes : List blockchain_node) (k : Nat) : Bool :=
  match parent_path blocknodes k with
  | .done path => path.all (fun node => node.is_valid)
  | .undefined => false
  | .loops => false

/-- The parent references from slot `k` lead to a root (a node without parent). -/
def reaches_root (blocknodes : List blockchain_node) (k : Nat) : Bool :=
  match parent_path blocknodes k with
  | .done _ => true
  | .undefined => false
  | .loops => false

/-- The transaction with hash `prev` in the nearest node of `anc` that has one, its
`reward_tx` tried before its `normal_tx`. -/
def matching_transaction (env : Env) (prev : hash_output) :
    List blockchain_node → Option transaction
  | [] => none
  | a :: rest =>
    if env.transaction_hash a.b.reward_tx = prev then some a.b.reward_tx
    else if env.transaction_hash a.b.normal_tx = prev then some a.b.normal_tx
    else matching_transaction env prev rest

/-- The hash rule of `valid_block_before_tree`. -/
def hash_rule (env : Env) (b : block) : Prop :=
  if b.height = 0 then env.block_hash b = GENESIS_BLOCK_HASH
  else env.hash_output_is_below_target (env.block_hash b) = true

instance (env : Env) (b : block) : Decidable (hash_rule env b) :=
  inferInstanceAs (Decidable (if b.height = 0 then env.block_hash b = GENESIS_BLOCK_HASH
    else env.hash_output_is_below_target (env.block_hash b) = true))

/-- The chain selected in `main`: the leaf found by the selection loop, followed through the
parent references (the walk of lines 308-313). -/
def selected_chain (env : Env) (uninit : Nat → blockchain_node) (input : List block) :
    Run (List blockchain_node) :=
  match validated_tree env uninit input with
  | .undefined => .undefined
  | .loops => .loops
  | .done (blocknodes, vblockc) =>
    match select_leaf blocknodes vblockc with
    | .undefined => .undefined
    | .loops => .loops
    | .done leaf_idx => if leaf_idx < 0 then .undefined else parent_path blocknodes leaf_idx.toNat

/-- Consecutive nodes of a path are child and parent by hash:
`child.b.prev_block_hash == block_hash(parent.b)`. -/
def hash_linked (env : Env) : List blockchain_node → Bool
  | child :: parent :: rest =>
    decide (child.b.prev_block_hash = env.block_hash parent.b) &&
      hash_linked env (parent :: rest)
  | _ => true

/-- No two nodes of a path both carry a normal transaction (a non-zero
`normal_tx.prev_transaction_hash`) with the same `prev_transaction_hash`. -/
def no_double_spend (path : List blockchain_node) : Prop :=
  List.Pairwise (fun deeper ancestor =>
    ¬(deeper.b.normal_tx.prev_transaction_hash ≠ 0 ∧
      ancestor.b.normal_tx.prev_transaction_hash ≠ 0 ∧
      deeper.b.normal_tx.prev_transaction_hash =
        ancestor.b.normal_tx.prev_transaction_hash)) path

instance (path : List blockchain_node) : Decidable (no_double_spend path) :=
  inferInstanceAs (Decidable (List.Pairwise (fun (deeper ancestor : blockchain_node) =>
    ¬(deeper.b.normal_tx.prev_transaction_hash ≠ 0 ∧
      ancestor.b.normal_tx.prev_transaction_hash ≠ 0 ∧
      deeper.b.normal_tx.prev_transaction_hash =
        ancestor.b.normal_tx.prev_transaction_hash)) path))

/-- The arena `after` has the same slots as `before` with the same parent references and
blocks, and no validity flag that was 0 is 1. -/
def flags_lowered (before after : List blockchain_node) : Prop :=
  after.length = before.length ∧
  ∀ (k : Nat) (node : blockchain_node), before[k]? = some node →
    ∃ node' : blockchain_node, after[k]? = some node' ∧ node'.parent = node.parent ∧
      node'.b = node.b ∧ (node'.is_valid = true → node.is_valid = true)

/-- No block left in uninitialised memory has a hash that a block of `blocks` names as its
parent. -/
def no_stale_match (env : Env) (uninit : Nat → blockchain_node) (blocks : List block) :
    Prop :=
  ∀ (j : Nat) (b : block), b ∈ blocks → env.block_hash (uninit j).b ≠ b.prev_block_hash

/-- The first `vblockc` slots are linked by hash to earlier slots, and the slots from
`vblockc` on still hold what `malloc` left there. -/
def tree_linked (env : Env) (uninit : Nat → blockchain_node)
    (blocknodes : List blockchain_node) (vblockc : Nat) : Prop :=
  (∀ j, vblockc ≤ j → j < blocknodes.length → blocknodes[j]? = some (uninit j)) ∧
  ∀ (k : Nat) (node : blockchain_node), k < vblockc → blocknodes[k]? = some node →
    ∀ p, node.parent = some p →
      p < k ∧ ∃ parent : blockchain_node, blocknodes[p]? = some parent ∧
        node.b.prev_block_hash = env.block_hash parent.b

/-- Every admitted node that has a parent points to an earlier slot whose block hash is its
`prev_block_hash`. -/
def well_linked (env : Env) (blocknodes : List blockchain_node) (vblockc : Nat) : Prop :=
  ∀ (k : Nat) (node : blockchain_node), k < vblockc → blocknodes[k]? = some node →
    ∀ p, node.parent = some p →
      p < k ∧ ∃ parent : blockchain_node, blocknodes[p]? = some parent ∧
        node.b.prev_block_hash = env.block_hash parent.b

/-- Slot `j` of `blocknodes` holds a block whose hash is `b.prev_block_hash`. -/
def hash_matches (env : Env) (b : block) (blocknodes : List blockchain_node) (j : Nat) : Prop :=
  ∃ node : blockchain_node, blocknodes[j]? = some node ∧
    env.block_hash node.b = b.prev_block_hash

instance (env : Env) (b : block) (blocknodes : List blockchain_node) (j : Nat) :
    Decidable (hash_matches env b blocknodes j) :=
  match h : blocknodes[j]? with
  | none => isFalse (fun ⟨_, hn, _⟩ => by rw [h] at hn; cases hn)
  | some node =>
    if hm : env.block_hash node.b = b.prev_block_hash then isTrue ⟨node, h, hm⟩
    else isFalse (fun ⟨n, hn, hh⟩ => by rw [h] at hn; cases hn; exact hm hh)

/-- The array `blocks` after `qsort` (line 235): the sequence the tree builder processes. -/
def processed_blocks (env : Env) (input : List block) : List block :=
  env.qsort compare_by_height input

/-- The arena and `vblockc` after the tree-building loop, before ancestry validation. -/
def built_tree (env : Env) (uninit : Nat → blockchain_node) (input : List block) :
    Run (List blockchain_node × Nat) :=
  build_tree_from env (processed_blocks env input) 0
    ((List.range (processed_blocks env input).length).map uninit) 0

/-- What the tree-building loop writes: a structurally valid block, as a root marked valid
when its height is 0, and otherwise either without parent and marked invalid or with a
parent and marked valid. -/
def admitted_shape (env : Env) (node : blockchain_node) : Prop :=
  valid_block_before_tree env node.b = 1 ∧
  (node.b.height = 0 → node.parent = none ∧ node.is_valid = true) ∧
  (node.b.height ≠ 0 → (node.parent = none ↔ node.is_valid = false))

/-- The balance the list holds for `pubkey`: that of the first entry with this key (both `x`
and `y` equal), 0 when there is none. -/
def balance_of : List balance → ecdsa_pubkey → Int
  | [], _ => 0
  | p :: rest, pubkey => if p.pubkey = pubkey then p.balance else balance_of rest pubkey

/-- The keys of a balance list, in list order. -/
def balance_keys (balances : List balance) : List ecdsa_pubkey :=
  balances.map (fun p => p.pubkey)

/-- What the C standard promises of `qsort` for the comparator `cmp`: the result is a
permutation of the array in which no element stands before one it compares greater than. -/
def sorts_with (env : Env) (cmp : block → block → Int) : Prop :=
  ∀ l : List block, (env.qsort cmp l).Perm l ∧
    (env.qsort cmp l).Pairwise (fun a b => cmp a b ≤ 0)

/-- The blocks of each height stand in `out` in the order they have in `input`. -/
def keeps_input_order (input out : List block) : Prop :=
  ∀ h : Nat, out.filter (fun b => decide (b.height = h)) =
    input.filter (fun b => decide (b.height = h))

/-- The first `vblockc` slots stand in non-decreasing block-height order. -/
def heights_ascending (blocknodes : List blockchain_node) (vblockc : Nat) : Prop :=
  List.Pairwise (fun (earlier later : blockchain_node) => earlier.b.height ≤ later.b.height)
    (blocknodes.take vblockc)

instance (blocknodes : List blockchain_node) (vblockc : Nat) :
    Decidable (heights_ascending blocknodes vblockc) :=
  inferInstanceAs (Decidable (List.Pairwise
    (fun (earlier later : blockchain_node) => earlier.b.height ≤ later.b.height)
    (blocknodes.take vblockc)))

/-- The blocks of the first `vblockc` slots, in slot order. -/
def admitted_blocks (blocknodes : List blockchain_node) (vblockc : Nat) : List block :=
  (blocknodes.take vblockc).map (fun node => node.b)

/-! ## Concrete instances -/

/-- A small stand-in for the collaborators: the hash of a height-0 block is the genesis hash,
any other block hashes to `256 * height + reward key`; the target is `2 ^ 232`; a signature
verifies when its `r` names the spent key; `qsort` is a stable insertion sort. -/
def toy_env : Env where
  block_hash b :=
    if b.height = 0 then GENESIS_BLOCK_HASH else 256 * b.height + b.reward_tx.dest_pubkey.x
  transaction_hash t := 65536 + 256 * t.height + t.dest_pubkey.x
  hash_output_is_below_target h := decide (h < 2 ^ 232)
  transaction_verify t p := if t.src_signature.r = p.dest_pubkey.x then 1 else 0
  qsort cmp l := l.insertionSort (fun a b => cmp a b ≤ 0)

/-- An unsigned transaction of height `h` to the key `k`, without input. -/
def plain_tx (h k : Nat) : transaction := ⟨h, 0, ⟨k, k⟩, ⟨0, 0⟩⟩

/-- A transaction of height `h` to the key `k` that spends the transaction with hash `prev`,
signed in the name of the key `signer`. -/
def spend_tx (h prev k signer : Nat) : transaction :=
  ⟨h, prev, ⟨k, k⟩, ⟨signer, signer⟩⟩

/-- A block of height `h` on top of the block with hash `prev`, rewarding the key `k`, with
no normal transaction. -/
def plain_block (h prev k : Nat) : block := ⟨h, prev, plain_tx h k, plain_tx h 0⟩

/-- A block that fails `valid_block_before_tree`: its reward transaction has another
height. -/
def malformed_block (h : Nat) : block := ⟨h, 0, plain_tx (h + 1) 0, plain_tx h 0⟩

/-- A genesis block rewarding the key 1. -/
def genesis_block : block := plain_block 0 0 1

/-- A slot of zero bytes. -/
def zero_node : blockchain_node := ⟨none, plain_block 0 0 0, false⟩

/-- Memory that `malloc` hands out zeroed. -/
def zeroed : Nat → blockchain_node := fun _ => zero_node

/-- Six blocks in ascending height order: the genesis block, two malformed blocks, a block of
height 3 whose `prev_block_hash` is 2313, a child of the genesis block, and a child of the
height-3 block. -/
def stale_input : List block :=
  [genesis_block, malformed_block 1, malformed_block 2, plain_block 3 2313 3,
   plain_block 4 GENESIS_BLOCK_HASH 4, plain_block 5 771 5]

/-- Memory whose slot 2 holds a block with hash 2313 before `main` writes to it. -/
def stale_memory : Nat → blockchain_node :=
  fun i => if i = 2 then ⟨none, plain_block 9 0 9, false⟩ else zero_node

/-- Two malformed blocks and a block of height 3 whose `prev_block_hash` is 2313. -/
def unchecked_input : List block :=
  [malformed_block 1, malformed_block 2, plain_block 3 2313 3]

/-- Memory whose slots 1 and 2 are never written by `main` on `unchecked_input`: slot 1 holds
a block with hash 2313 and points to slot 2, and both blocks spend the transaction 65793. -/
def unchecked_memory : Nat → blockchain_node :=
  fun i =>
    if i = 1 then ⟨some 2, ⟨9, 0, plain_tx 9 9, spend_tx 9 65793 7 1⟩, true⟩
    else if i = 2 then ⟨none, ⟨8, 0, plain_tx 8 8, spend_tx 8 65793 6 1⟩, true⟩
    else zero_node

/-- A genesis block, a branch of two blocks on it (heights 1 and 2), and a block of height 3
directly on the genesis block. -/
def fork_input : List block :=
  [genesis_block, plain_block 1 GENESIS_BLOCK_HASH 2, plain_block 2 258 3,
   plain_block 3 GENESIS_BLOCK_HASH 4]

/-- A genesis block and a block of height 2 directly on it. -/
def gap_input : List block := [genesis_block, plain_block 2 GENESIS_BLOCK_HASH 2]

/-- A genesis block, a block of height 1 on it, and a second block of height 1 on the
first. -/
def tie_input : List block :=
  [genesis_block, plain_block 1 GENESIS_BLOCK_HASH 2, plain_block 1 258 3]

/-- A height-0 block whose normal transaction has no input but carries height 1. -/
def odd_genesis : block := ⟨0, 0, plain_tx 0 1, plain_tx 1 0⟩

/-- Four slots: a root, an invalid child of the root, a valid child of the root, and a child
of the invalid node. -/
def sample_nodes : List blockchain_node :=
  [⟨none, genesis_block, true⟩, ⟨some 0, plain_block 1 GENESIS_BLOCK_HASH 2, false⟩,
   ⟨some 0, plain_block 1 GENESIS_BLOCK_HASH 3, true⟩, ⟨some 1, plain_block 2 258 4, true⟩]

/-- The arena that `main` builds from `stale_input` in `stale_memory`: the height-3 block in
slot 1 points to slot 2, which by then holds the height-4 block. -/
def stale_tree : List blockchain_node :=
  [⟨none, genesis_block, true⟩, ⟨some 2, plain_block 3 2313 3, true⟩,
   ⟨some 0, plain_block 4 GENESIS_BLOCK_HASH 4, true⟩, ⟨some 1, plain_block 5 771 5, true⟩,
   zero_node, zero_node]

/-- The chain selected from `stale_tree`, leaf first. -/
def stale_chain : List blockchain_node :=
  [⟨some 1, plain_block 5 771 5, true⟩, ⟨some 2, plain_block 3 2313 3, true⟩,
   ⟨some 0, plain_block 4 GENESIS_BLOCK_HASH 4, true⟩, ⟨none, genesis_block, true⟩]

/-- The arena that `main` builds from `unchecked_input` in `unchecked_memory`; it is also
the chain selected from it, leaf first. -/
def unchecked_chain : List blockchain_node :=
  [⟨some 1, plain_block 3 2313 3, true⟩, unchecked_memory 1, unchecked_memory 2]

/-- The arena that `main` builds from `fork_input`. -/
def fork_tree : List blockchain_node :=
  [⟨none, genesis_block, true⟩, ⟨some 0, plain_block 1 GENESIS_BLOCK_HASH 2, true⟩,
   ⟨some 1, plain_block 2 258 3, true⟩, ⟨some 0, plain_block 3 GENESIS_BLOCK_HASH 4, true⟩]

/-- The stand-in collaborators with another `qsort`: an insertion sort of the reversed array,
which sorts but leaves equal elements in reverse input order. -/
def unstable_env : Env where
  block_hash := toy_env.block_hash
  transaction_hash := toy_env.transaction_hash
  hash_output_is_below_target := toy_env.hash_output_is_below_target
  transaction_verify := toy_env.transaction_verify
  qsort cmp l := l.reverse.insertionSort (fun a b => cmp a b ≤ 0)

/-- Two different blocks of height 1. -/
def twin_input : List block :=
  [plain_block 1 GENESIS_BLOCK_HASH 2, plain_block 1 GENESIS_BLOCK_HASH 3]

/-- A malformed block and a block of height 2 whose `prev_block_hash` is 2313. -/
def loop_input : List block := [malformed_block 1, plain_block 2 2313 2]

/-- Memory whose slot 0 holds a block with hash 2313 before `main` writes to it. -/
def loop_memory : Nat → blockchain_node :=
  fun i => if i = 0 then ⟨none, plain_block 9 0 9, false⟩ else zero_node

/-- Two malformed blocks and a block of height 3 whose `prev_block_hash` is 2313, the hash
of no other input block. -/
def orphan_input : List block :=
  [malformed_block 1, malformed_block 2, plain_block 3 2313 3]

/-- Memory whose slot 1, never written by `main` on `orphan_input`, holds a block of height 9
with hash 2313, a NULL parent and a non-zero validity flag. -/
def orphan_memory : Nat → blockchain_node :=
  fun i => if i = 1 then ⟨none, plain_block 9 0 9, true⟩ else zero_node

/-- The arena that `main` builds from `loop_input` in `loop_memory`: the height-2 block in
slot 0 points to slot 0. -/
def loop_tree : List blockchain_node :=
  [⟨some 0, plain_block 2 2313 2, true⟩, zero_node]

/-- The arena that `main` builds from `orphan_input` in `orphan_memory`: the height-3 block
in slot 0 points to the never-written slot 1. -/
def orphan_tree : List blockchain_node :=
  [⟨some 1, plain_block 3 2313 3, true⟩, orphan_memory 1, zero_node]

/-- A root and two admitted copies of the same height-1 block. -/
def duplicate_nodes : List blockchain_node :=
  [⟨none, genesis_block, true⟩, ⟨some 0, plain_block 1 GENESIS_BLOCK_HASH 2, true⟩,
   ⟨some 0, plain_block 1 GENESIS_BLOCK_HASH 2, true⟩]

/-- A root, an orphan without normal transaction, and a child of the root whose normal
transaction spends a transaction that no ancestor has. -/
def pass_nodes : List blockchain_node :=
  [⟨none, genesis_block, true⟩, ⟨none, plain_block 1 2313 2, false⟩,
   ⟨some 0, ⟨1, GENESIS_BLOCK_HASH, plain_tx 1 3, spend_tx 1 999 4 1⟩, true⟩]

/-- The arena `pass_nodes` after the ancestry-validation loop. -/
def pass_result : List blockchain_node :=
  [⟨none, genesis_block, true⟩, ⟨none, plain_block 1 2313 2, false⟩,
   ⟨some 0, ⟨1, GENESIS_BLOCK_HASH, plain_tx 1 3, spend_tx 1 999 4 1⟩, false⟩]

/-- A balance list with two keys. -/
def sample_balances : List balance := [⟨⟨1, 1⟩, 1⟩, ⟨⟨2, 7⟩, 5⟩]

/-- A balance list whose only entry holds `INT_MAX`. -/
def full_balances : List balance := [⟨⟨1, 1⟩, 2147483647⟩]

/-! ## Lemmas -/

/-- The comparison `byte32_cmp` is 0 exactly on equal values. -/
theorem byte32_cmp_eq_zero (a b : Nat) : byte32_cmp a b = 0 ↔ a = b := by
  unfold byte32_cmp
  split_ifs with h1 h2
  · simp only [Int.reduceNeg, neg_eq_zero, one_ne_zero, false_iff]
    exact Nat.ne_of_lt h1
  · simp only [one_ne_zero, false_iff]
    exact fun h => Nat.ne_of_lt h2 h.symm
  · simp only [true_iff]
    exact Nat.le_antisymm (Nat.not_lt.mp h2) (Nat.not_lt.mp h1)

/-- A branch that returns 0 is not taken when the result is 1. -/
theorem ite_zero_eq_one (c : Prop) [Decidable c] (x : Int) :
    (if c then 0 else x) = 1 ↔ ¬c ∧ x = 1 := by
  by_cases h : c <;> simp [h]

/-- The function `valid_block_before_tree` returns 1 exactly when every one of its rules
holds; the height rule covers `normal_tx` whether or not a normal transaction is present. -/
theorem valid_block_before_tree_eq_one (env : Env) (b : block) :
    valid_block_before_tree env b = 1 ↔
      hash_rule env b ∧ b.reward_tx.height = b.height ∧ b.normal_tx.height = b.height ∧
      byte32_is_zero b.reward_tx.prev_transaction_hash = true ∧
      byte32_is_zero b.reward_tx.src_signature.r = true ∧
      byte32_is_zero b.reward_tx.src_signature.s = true := by
  unfold valid_block_before_tree hash_rule
  simp only [ite_zero_eq_one, and_true]
  by_cases h0 : b.height = 0
  · simp only [h0, if_true, bne_iff_ne, ne_eq, byte32_cmp_eq_zero, Bool.or_eq_true,
      Bool.not_eq_true', not_or, not_not, Bool.not_eq_false, decide_eq_true_eq]
    constructor
    · rintro ⟨h1, ⟨h2, h3⟩, ⟨h4, h5⟩, h6⟩
      exact ⟨h1, h2.symm, h3.symm, h4, h5, h6⟩
    · rintro ⟨h1, h2, h3, h4, h5, h6⟩
      exact ⟨h1, ⟨h2.symm, h3.symm⟩, ⟨h4, h5⟩, h6⟩
  · simp only [h0, if_false, bne_iff_ne, ne_eq, Bool.or_eq_true,
      Bool.not_eq_true', not_or, not_not, Bool.not_eq_false]
    constructor
    · rintro ⟨h1, ⟨h2, h3⟩, ⟨h4, h5⟩, h6⟩
      exact ⟨h1, h2.symm, h3.symm, h4, h5, h6⟩
    · rintro ⟨h1, h2, h3, h4, h5, h6⟩
      exact ⟨h1, ⟨h2.symm, h3.symm⟩, ⟨h4, h5⟩, h6⟩

/-- On a walk that reaches NULL, the first loop of `valid_node_after_tree` finds the nearest
matching transaction. -/
theorem find_previous_transaction_of_chain (env : Env) (blocknodes : List blockchain_node)
    (prev : hash_output) (fuel : Nat) (p : Option Nat) (anc : List blockchain_node)
    (h : chain_from blocknodes fuel p = .done anc) :
    find_previous_transaction env blocknodes prev fuel p =
      .done (matching_transaction env prev anc) := by
  induction fuel generalizing p anc with
  | zero =>
    cases p with
    | none =>
      simp only [chain_from, Run.done.injEq] at h
      subst h
      simp [find_previous_transaction, matching_transaction]
    | some a => simp [chain_from] at h
  | succ fuel ih =>
    cases p with
    | none =>
      simp only [chain_from, Run.done.injEq] at h
      subst h
      simp [find_previous_transaction, matching_transaction]
    | some a =>
      simp only [chain_from] at h
      simp only [find_previous_transaction]
      cases hget : blocknodes[a]? with
      | none => simp [hget] at h
      | some node =>
        simp only [hget] at h
        cases hrest : chain_from blocknodes fuel node.parent with
        | undefined => simp [hrest] at h
        | loops => simp [hrest] at h
        | done rest =>
          simp only [hrest, Run.done.injEq] at h
          subst h
          simp only [matching_transaction, byte32_cmp_eq_zero]
          rw [ih node.parent rest hrest]
          by_cases h1 : prev = env.transaction_hash node.b.reward_tx
          · rw [if_pos h1, if_pos h1.symm]
          · have h1' : ¬ env.transaction_hash node.b.reward_tx = prev := fun e => h1 e.symm
            rw [if_neg h1, if_neg h1']
            by_cases h2 : prev = env.transaction_hash node.b.normal_tx
            · rw [if_pos h2, if_pos h2.symm]
            · have h2' : ¬ env.transaction_hash node.b.normal_tx = prev := fun e => h2 e.symm
              rw [if_neg h2, if_neg h2']

/-- On a walk that reaches NULL, the second loop of `valid_node_after_tree` tells whether
some ancestor spends the same transaction. -/
theorem already_spent_of_chain (blocknodes : List blockchain_node)
    (prev : hash_output) (fuel : Nat) (p : Option Nat) (anc : List blockchain_node)
    (h : chain_from blocknodes fuel p = .done anc) :
    already_spent blocknodes prev fuel p =
      .done (anc.any (fun a => decide (a.b.normal_tx.prev_transaction_hash = prev))) := by
  induction fuel generalizing p anc with
  | zero =>
    cases p with
    | none =>
      simp only [chain_from, Run.done.injEq] at h
      subst h
      simp [already_spent]
    | some a => simp [chain_from] at h
  | succ fuel ih =>
    cases p with
    | none =>
      simp only [chain_from, Run.done.injEq] at h
      subst h
      simp [already_spent]
    | some a =>
      simp only [chain_from] at h
      simp only [already_spent]
      cases hget : blocknodes[a]? with
      | none => simp [hget] at h
      | some node =>
        simp only [hget] at h
        cases hrest : chain_from blocknodes fuel node.parent with
        | undefined => simp [hrest] at h
        | loops => simp [hrest] at h
        | done rest =>
          simp only [hrest, Run.done.injEq] at h
          subst h
          simp only [byte32_cmp_eq_zero, List.any_cons]
          rw [ih node.parent rest hrest]
          by_cases h1 : prev = node.b.normal_tx.prev_transaction_hash
          · rw [if_pos h1]
            simp [h1.symm]
          · have h1' : ¬ node.b.normal_tx.prev_transaction_hash = prev := fun e => h1 e.symm
            rw [if_neg h1]
            simp [h1']

/-- The second loop of `valid_node_after_tree` runs to the end only on a walk that reaches
NULL. -/
theorem chain_of_already_spent_false (blocknodes : List blockchain_node)
    (prev : hash_output) (fuel : Nat) (p : Option Nat)
    (h : already_spent blocknodes prev fuel p = .done false) :
    ∃ anc, chain_from blocknodes fuel p = .done anc := by
  induction fuel generalizing p with
  | zero =>
    cases p with
    | none => exact ⟨[], by simp [chain_from]⟩
    | some a => simp [already_spent] at h
  | succ fuel ih =>
    cases p with
    | none => exact ⟨[], by simp [chain_from]⟩
    | some a =>
      simp only [already_spent] at h
      simp only [chain_from]
      cases hget : blocknodes[a]? with
      | none => simp [hget] at h
      | some node =>
        simp only [hget] at h
        split_ifs at h with h1
        · simp at h
        · obtain ⟨rest, hrest⟩ := ih node.parent h
          exact ⟨node :: rest, by simp [hrest]⟩

/-- The inner loop of the selection computes whether every node of the walk is valid. -/
theorem path_is_valid_of_chain (blocknodes : List blockchain_node) (fuel : Nat)
    (p : Option Nat) (valid : Bool) :
    path_is_valid blocknodes fuel p valid =
      match chain_from blocknodes fuel p with
      | .done path => .done (valid && path.all (fun node => node.is_valid))
      | .undefined => .undefined
      | .loops => .loops := by
  induction fuel generalizing p valid with
  | zero =>
    cases p with
    | none => simp [path_is_valid, chain_from]
    | some a => simp [path_is_valid, chain_from]
  | succ fuel ih =>
    cases p with
    | none => simp [path_is_valid, chain_from]
    | some a =>
      simp only [path_is_valid, chain_from]
      cases hget : blocknodes[a]? with
      | none => simp
      | some node =>
        simp only []
        rw [ih]
        cases hrest : chain_from blocknodes fuel node.parent with
        | undefined => simp
        | loops => simp
        | done rest =>
          cases hv : node.is_valid <;> cases valid <;> simp [hv]

/-- A matching transaction belongs to some ancestor. -/
theorem matching_transaction_mem (env : Env) (prev : hash_output)
    (anc : List blockchain_node) (t : transaction)
    (h : matching_transaction env prev anc = some t) :
    ∃ a ∈ anc, env.transaction_hash a.b.reward_tx = prev ∨
      env.transaction_hash a.b.normal_tx = prev := by
  induction anc with
  | nil => simp [matching_transaction] at h
  | cons a rest ih =>
    simp only [matching_transaction] at h
    split_ifs at h with h1 h2
    · exact ⟨a, List.mem_cons_self a rest, Or.inl h1⟩
    · exact ⟨a, List.mem_cons_self a rest, Or.inr h2⟩
    · obtain ⟨a', ha', hm⟩ := ih h
      exact ⟨a', List.mem_cons_of_mem a ha', hm⟩

/-- The result 1 of `valid_node_after_tree`, characterised through the strict ancestors. -/
theorem valid_node_after_tree_one_iff (env : Env) (blocknodes : List blockchain_node)
    (node : blockchain_node) :
    valid_node_after_tree env blocknodes node = .done 1 ↔
      byte32_is_zero node.b.normal_tx.prev_transaction_hash = true ∨
      ∃ anc, ancestors blocknodes node = .done anc ∧
        (∃ a ∈ anc,
          env.transaction_hash a.b.reward_tx = node.b.normal_tx.prev_transaction_hash ∨
          env.transaction_hash a.b.normal_tx = node.b.normal_tx.prev_transaction_hash) ∧
        (∃ t, matching_transaction env node.b.normal_tx.prev_transaction_hash anc = some t ∧
          env.transaction_verify node.b.normal_tx t = 1) ∧
        (∀ a ∈ anc,
          a.b.normal_tx.prev_transaction_hash ≠ node.b.normal_tx.prev_transaction_hash) := by
  unfold valid_node_after_tree valid_node_after_tree_fuel ancestors
  cases hz : byte32_is_zero node.b.normal_tx.prev_transaction_hash with
  | true => simp
  | false =>
    simp only [Bool.not_false, if_true, Bool.false_eq_true, false_or]
    constructor
    · intro h
      cases hf : find_previous_transaction env blocknodes
          node.b.normal_tx.prev_transaction_hash blocknodes.length node.parent with
      | undefined => simp [hf] at h
      | loops => simp [hf] at h
      | done r =>
        cases r with
        | none => simp [hf] at h
        | some t =>
          simp only [hf] at h
          split_ifs at h with hv
          · cases hs : already_spent blocknodes node.b.normal_tx.prev_transaction_hash
                blocknodes.length node.parent with
            | undefined => simp [hs] at h
            | loops => simp [hs] at h
            | done spent =>
              cases spent with
              | true => simp [hs] at h
              | false =>
                obtain ⟨anc, hanc⟩ := chain_of_already_spent_false _ _ _ _ hs
                have hf' := find_previous_transaction_of_chain env _
                  node.b.normal_tx.prev_transaction_hash _ _ _ hanc
                have hs' := already_spent_of_chain _
                  node.b.normal_tx.prev_transaction_hash _ _ _ hanc
                rw [hf] at hf'
                rw [hs] at hs'
                simp only [Run.done.injEq] at hf' hs'
                refine ⟨anc, hanc, matching_transaction_mem env _ anc t hf'.symm,
                  ⟨t, hf'.symm, hv⟩, ?_⟩
                intro a ha hEq
                have : anc.any (fun a => decide (a.b.normal_tx.prev_transaction_hash =
                    node.b.normal_tx.prev_transaction_hash)) = true :=
                  List.any_eq_true.mpr ⟨a, ha, by simp [hEq]⟩
                rw [← hs'] at this
                exact Bool.false_ne_true this
          · simp at h
    · rintro ⟨anc, hanc, -, ⟨t, ht, hv⟩, hno⟩
      rw [find_previous_transaction_of_chain env _ _ _ _ _ hanc,
        already_spent_of_chain _ _ _ _ _ hanc, ht]
      have hany : anc.any (fun a => decide (a.b.normal_tx.prev_transaction_hash =
          node.b.normal_tx.prev_transaction_hash)) = false := by
        rw [List.any_eq_false]
        intro a ha
        simpa using hno a ha
      simp [hv, hany]

/-- The selection loop stops at the greatest slot with a fully valid path. -/
theorem select_leaf_greatest (blocknodes : List blockchain_node) (vblockc : Nat)
    (hroot : ∀ j, j < vblockc → reaches_root blocknodes j = true)
    (hsome : ∃ j, j < vblockc ∧ fully_valid blocknodes j = true) :
    ∃ k, select_leaf blocknodes vblockc = .done (Int.ofNat k) ∧ k < vblockc ∧
      fully_valid blocknodes k = true ∧
      ∀ j, k < j → j < vblockc → fully_valid blocknodes j = false := by
  induction vblockc with
  | zero =>
    obtain ⟨j, hj, -⟩ := hsome
    exact absurd hj (Nat.not_lt_zero j)
  | succ v ih =>
    have hpath : ∃ path, parent_path blocknodes v = .done path := by
      have h := hroot v (Nat.lt_succ_self v)
      unfold reaches_root at h
      cases hp : parent_path blocknodes v with
      | done path => exact ⟨path, rfl⟩
      | undefined => simp [hp] at h
      | loops => simp [hp] at h
    obtain ⟨path, hpath⟩ := hpath
    have hstep : path_is_valid blocknodes blocknodes.length (some v) true =
        .done (fully_valid blocknodes v) := by
      rw [path_is_valid_of_chain]
      unfold fully_valid
      unfold parent_path at hpath ⊢
      rw [hpath]
      simp
    simp only [select_leaf, hstep]
    cases hv : fully_valid blocknodes v with
    | true =>
      refine ⟨v, by simp, Nat.lt_succ_self v, hv, ?_⟩
      intro j h1 h2
      omega
    | false =>
      simp only [Bool.false_eq_true, if_false]
      have hsome' : ∃ j, j < v ∧ fully_valid blocknodes j = true := by
        obtain ⟨j, hj, hfv⟩ := hsome
        refine ⟨j, ?_, hfv⟩
        rcases Nat.lt_succ_iff_lt_or_eq.mp hj with h | h
        · exact h
        · subst h
          rw [hv] at hfv
          exact absurd hfv Bool.false_ne_true
      obtain ⟨k, hk, hlt, hfv, hmax⟩ :=
        ih (fun j hj => hroot j (Nat.lt_succ_of_lt hj)) hsome'
      refine ⟨k, hk, Nat.lt_succ_of_lt hlt, hfv, ?_⟩
      intro j h1 h2
      rcases Nat.lt_succ_iff_lt_or_eq.mp h2 with h | h
      · exact hmax j h1 h
      · subst h
        exact hv

/-- The function `valid_block_before_tree` returns 0 or 1. -/
theorem valid_block_before_tree_zero_or_one (env : Env) (b : block) :
    valid_block_before_tree env b = 0 ∨ valid_block_before_tree env b = 1 := by
  unfold valid_block_before_tree
  simp only []
  split_ifs <;> simp

/-- A walk that reaches NULL visits a list of slots. -/
theorem is_walk_of_chain (blocknodes : List blockchain_node) (fuel : Nat) :
    ∀ (p : Option Nat) (path : List blockchain_node),
      chain_from blocknodes fuel p = .done path →
      ∃ idxs, is_walk blocknodes p idxs ∧ idxs.length = path.length := by
  induction fuel with
  | zero =>
    intro p path h
    cases p with
    | none =>
      simp only [chain_from, Run.done.injEq] at h
      subst h
      exact ⟨[], trivial, rfl⟩
    | some n => simp [chain_from] at h
  | succ fuel ih =>
    intro p path h
    cases p with
    | none =>
      simp only [chain_from, Run.done.injEq] at h
      subst h
      exact ⟨[], trivial, rfl⟩
    | some n =>
      simp only [chain_from] at h
      cases hget : blocknodes[n]? with
      | none => simp [hget] at h
      | some node =>
        simp only [hget] at h
        cases hrest : chain_from blocknodes fuel node.parent with
        | undefined => simp [hrest] at h
        | loops => simp [hrest] at h
        | done rest =>
          simp only [hrest, Run.done.injEq] at h
          subst h
          obtain ⟨idxs, hw, hl⟩ := ih node.parent rest hrest
          exact ⟨n :: idxs, ⟨rfl, node, hget, hw⟩, by simp [hl]⟩

/-- With at least as much fuel as slots to visit, the walk is found. -/
theorem chain_of_is_walk (blocknodes : List blockchain_node) :
    ∀ (idxs : List Nat) (p : Option Nat) (fuel : Nat),
      is_walk blocknodes p idxs → idxs.length ≤ fuel →
      ∃ path, chain_from blocknodes fuel p = .done path ∧ path.length = idxs.length := by
  intro idxs
  induction idxs with
  | nil =>
    intro p fuel hw _
    cases p with
    | none => exact ⟨[], by cases fuel <;> simp [chain_from], rfl⟩
    | some n => exact absurd hw (by simp [is_walk])
  | cons m rest ih =>
    intro p fuel hw hf
    cases p with
    | none => exact absurd hw (by simp [is_walk])
    | some n =>
      obtain ⟨-, node, hget, hw'⟩ := hw
      cases fuel with
      | zero => simp at hf
      | succ fuel =>
        obtain ⟨path, hp, hl⟩ := ih node.parent fuel hw' (by simpa using hf)
        exact ⟨node :: path, by simp [chain_from, hget, hp], by simp [hl]⟩

/-- The slots met from a pointer are determined by the pointer. -/
theorem is_walk_unique (blocknodes : List blockchain_node) :
    ∀ (l1 l2 : List Nat) (p : Option Nat),
      is_walk blocknodes p l1 → is_walk blocknodes p l2 → l1 = l2 := by
  intro l1
  induction l1 with
  | nil =>
    intro l2 p h1 h2
    cases p with
    | none =>
      cases l2 with
      | nil => rfl
      | cons m rest => exact absurd h2 (by simp [is_walk])
    | some n => exact absurd h1 (by simp [is_walk])
  | cons m rest ih =>
    intro l2 p h1 h2
    cases p with
    | none => exact absurd h1 (by simp [is_walk])
    | some n =>
      cases l2 with
      | nil => exact absurd h2 (by simp [is_walk])
      | cons m2 rest2 =>
        obtain ⟨e1, node1, hg1, hw1⟩ := h1
        obtain ⟨e2, node2, hg2, hw2⟩ := h2
        rw [hg1] at hg2
        cases hg2
        rw [← e1, ← e2, ih rest2 node1.parent hw1 hw2]

/-- The rest of a walk is the walk from the slot reached. -/
theorem is_walk_suffix (blocknodes : List blockchain_node) :
    ∀ (l1 : List Nat) (p : Option Nat) (m : Nat) (l2 : List Nat),
      is_walk blocknodes p (l1 ++ m :: l2) → is_walk blocknodes (some m) (m :: l2) := by
  intro l1
  induction l1 with
  | nil =>
    intro p m l2 h
    cases p with
    | none => exact absurd h (by simp [is_walk])
    | some n =>
      obtain ⟨e, node, hg, hw⟩ := h
      subst e
      exact ⟨rfl, node, hg, hw⟩
  | cons a rest ih =>
    intro p m l2 h
    cases p with
    | none => exact absurd h (by simp [is_walk])
    | some n =>
      obtain ⟨-, node, -, hw⟩ := h
      exact ih node.parent m l2 hw

/-- A walk that reaches NULL meets no slot twice. -/
theorem is_walk_nodup (blocknodes : List blockchain_node) :
    ∀ (idxs : List Nat) (p : Option Nat), is_walk blocknodes p idxs → idxs.Nodup := by
  intro idxs
  induction idxs with
  | nil => intro _ _; exact List.nodup_nil
  | cons m rest ih =>
    intro p h
    cases p with
    | none => exact absurd h (by simp [is_walk])
    | some n =>
      have hfull := h
      obtain ⟨e, node, hg, hw⟩ := h
      subst e
      refine List.nodup_cons.mpr ⟨?_, ih node.parent hw⟩
      intro hmem
      obtain ⟨l1, l2, hsplit⟩ := List.append_of_mem hmem
      have hsuf : is_walk blocknodes (some n) (n :: l2) := by
        apply is_walk_suffix blocknodes l1 node.parent n l2
        rw [← hsplit]
        exact hw
      have heq := is_walk_unique blocknodes _ _ _ hsuf hfull
      have hlen := congrArg List.length heq
      rw [hsplit] at hlen
      simp at hlen
      omega

/-- A walk that reaches NULL stays inside the arena. -/
theorem is_walk_in_bounds (blocknodes : List blockchain_node) :
    ∀ (idxs : List Nat) (p : Option Nat), is_walk blocknodes p idxs →
      ∀ m ∈ idxs, m < blocknodes.length := by
  intro idxs
  induction idxs with
  | nil => intro _ _ m hm; simp at hm
  | cons a rest ih =>
    intro p h m hm
    cases p with
    | none => exact absurd h (by simp [is_walk])
    | some n =>
      obtain ⟨e, node, hg, hw⟩ := h
      rcases List.mem_cons.mp hm with h1 | h1
      · subst h1
        subst e
        exact (List.getElem?_eq_some.mp hg).1
      · exact ih node.parent hw m h1

/-- A walk that reaches NULL meets at most as many slots as the arena has. -/
theorem is_walk_length_le (blocknodes : List blockchain_node) (idxs : List Nat)
    (p : Option Nat) (h : is_walk blocknodes p idxs) : idxs.length ≤ blocknodes.length := by
  have hnd := is_walk_nodup blocknodes idxs p h
  have hb := is_walk_in_bounds blocknodes idxs p h
  have hsub : idxs ⊆ List.range blocknodes.length := by
    intro m hm
    exact List.mem_range.mpr (hb m hm)
  have := (List.subperm_of_subset hnd hsub).length_le
  simpa using this

/-- The nodes met from a pointer do not depend on the fuel. -/
theorem chain_from_unique (blocknodes : List blockchain_node) (f1 : Nat) :
    ∀ (f2 : Nat) (p : Option Nat) (l1 l2 : List blockchain_node),
      chain_from blocknodes f1 p = .done l1 → chain_from blocknodes f2 p = .done l2 →
      l1 = l2 := by
  induction f1 with
  | zero =>
    intro f2 p l1 l2 h1 h2
    cases p with
    | none =>
      cases f2 <;> simp only [chain_from, Run.done.injEq] at h1 h2 <;> rw [← h1, ← h2]
    | some n => simp [chain_from] at h1
  | succ f1 ih =>
    intro f2 p l1 l2 h1 h2
    cases p with
    | none =>
      cases f2 <;> simp only [chain_from, Run.done.injEq] at h1 h2 <;> rw [← h1, ← h2]
    | some n =>
      cases f2 with
      | zero => simp [chain_from] at h2
      | succ f2 =>
        simp only [chain_from] at h1 h2
        cases hget : blocknodes[n]? with
        | none => simp [hget] at h1
        | some node =>
          simp only [hget] at h1 h2
          cases hr1 : chain_from blocknodes f1 node.parent with
          | undefined => simp [hr1] at h1
          | loops => simp [hr1] at h1
          | done r1 =>
            cases hr2 : chain_from blocknodes f2 node.parent with
            | undefined => simp [hr2] at h2
            | loops => simp [hr2] at h2
            | done r2 =>
              simp only [hr1, hr2, Run.done.injEq] at h1 h2
              rw [← h1, ← h2, ih f2 node.parent r1 r2 hr1 hr2]

/-- The fuel used throughout, the arena length, is enough: a walk that reaches NULL with any
amount of fuel reaches it with the arena length as fuel, so `Run.loops` stands for a walk
that never ends. -/
theorem chain_from_arena_fuel (blocknodes : List blockchain_node) (fuel : Nat)
    (p : Option Nat) (path : List blockchain_node)
    (h : chain_from blocknodes fuel p = .done path) :
    chain_from blocknodes blocknodes.length p = .done path := by
  obtain ⟨idxs, hw, hl⟩ := is_walk_of_chain blocknodes fuel p path h
  obtain ⟨path', hp, -⟩ := chain_of_is_walk blocknodes idxs p blocknodes.length hw
    (is_walk_length_le blocknodes idxs p hw)
  rw [hp, chain_from_unique blocknodes _ _ p path' path hp h]

/-- When no slot below `vblockc` has a fully valid path, the selection loop ends with
`leaf_idx = -1`. -/
theorem select_leaf_without_valid_path (blocknodes : List blockchain_node) (vblockc : Nat)
    (hroot : ∀ j, j < vblockc → reaches_root blocknodes j = true)
    (hnone : ∀ j, j < vblockc → fully_valid blocknodes j = false) :
    select_leaf blocknodes vblockc = .done (-1) := by
  induction vblockc with
  | zero => rfl
  | succ v ih =>
    have hr := hroot v (Nat.lt_succ_self v)
    have hv := hnone v (Nat.lt_succ_self v)
    unfold reaches_root at hr
    unfold fully_valid at hv
    simp only [select_leaf, path_is_valid_of_chain]
    unfold parent_path at hr hv
    cases hp : chain_from blocknodes blocknodes.length (some v) with
    | undefined => simp [hp] at hr
    | loops => simp [hp] at hr
    | done path =>
      simp only [hp] at hv
      simp only [Bool.true_and, hv, Bool.false_eq_true, if_false]
      exact ih (fun j hj => hroot j (Nat.lt_succ_of_lt hj))
        (fun j hj => hnone j (Nat.lt_succ_of_lt hj))

/-- When no admitted node has a fully valid path, `main` reads `blocknodes[-1]`: there is no
error exit. -/
theorem main_undefined_without_valid_path (env : Env) (uninit : Nat → blockchain_node)
    (input : List block) (blocknodes : List blockchain_node) (vblockc : Nat)
    (htree : validated_tree env uninit input = .done (blocknodes, vblockc))
    (hroot : ∀ j, j < vblockc → reaches_root blocknodes j = true)
    (hnone : ∀ j, j < vblockc → fully_valid blocknodes j = false) :
    main env uninit input = .undefined := by
  unfold main longest_chain
  rw [htree]
  simp only [select_leaf_without_valid_path blocknodes vblockc hroot hnone]
  simp [build_chain]

/-- Whatever the input, a run of `main` that returns has printed no balance line and returns
0. -/
theorem main_balances_empty (env : Env) (uninit : Nat → blockchain_node)
    (input : List block) (out : Output) (h : main env uninit input = .done out) :
    out.balances = [] ∧ out.status = 0 := by
  unfold main at h
  cases hc : longest_chain env uninit input with
  | undefined => simp [hc] at h
  | loops => simp [hc] at h
  | done chain =>
    simp only [hc, Run.done.injEq] at h
    subst h
    exact ⟨rfl, rfl⟩

/-- The chain-filling loop writes the node met after `m` steps to the index `chain_idx - m`
and leaves the other slots alone, as long as the indices stay inside the array. -/
theorem fill_chain_of_chain (blocknodes : List blockchain_node) (fuel : Nat) :
    ∀ (p : Option Nat) (chain_idx : Int) (chain : List (Option blockchain_node))
      (path : List blockchain_node),
      chain_from blocknodes fuel p = .done path →
      (path.length : Int) ≤ chain_idx + 1 → chain_idx < chain.length →
      ∃ filled, fill_chain blocknodes fuel p chain_idx chain = .done filled ∧
        filled.length = chain.length ∧
        (∀ m, m < path.length → filled[(chain_idx - m).toNat]? = some path[m]?) ∧
        (∀ q : Nat, (chain_idx < q ∨ (q : Int) + path.length ≤ chain_idx) →
          filled[q]? = chain[q]?) := by
  induction fuel with
  | zero =>
    intro p chain_idx chain path h _ _
    cases p with
    | none =>
      simp only [chain_from, Run.done.injEq] at h
      subst h
      exact ⟨chain, by simp [fill_chain], rfl, by simp, fun _ _ => rfl⟩
    | some n => simp [chain_from] at h
  | succ fuel ih =>
    intro p chain_idx chain path h hlen hidx
    cases p with
    | none =>
      simp only [chain_from, Run.done.injEq] at h
      subst h
      exact ⟨chain, by simp [fill_chain], rfl, by simp, fun _ _ => rfl⟩
    | some n =>
      simp only [chain_from] at h
      cases hget : blocknodes[n]? with
      | none => simp [hget] at h
      | some node =>
        simp only [hget] at h
        cases hrest : chain_from blocknodes fuel node.parent with
        | undefined => simp [hrest] at h
        | loops => simp [hrest] at h
        | done rest =>
          simp only [hrest, Run.done.injEq] at h
          subst h
          simp only [List.length_cons, Nat.cast_add, Nat.cast_one] at hlen
          have h0 : 0 ≤ chain_idx := by omega
          obtain ⟨filled, hfill, hl, hin, hout⟩ :=
            ih node.parent (chain_idx - 1) (chain.set chain_idx.toNat (some node)) rest hrest
              (by omega) (by simp only [List.length_set]; omega)
          refine ⟨filled, ?_, ?_, ?_, ?_⟩
          · simp only [fill_chain, hget, h0, hidx, and_self, if_true]
            exact hfill
          · simpa using hl
          · intro m hm
            cases m with
            | zero =>
              have := hout chain_idx.toNat (Or.inl (by omega))
              simp only [Nat.cast_zero, sub_zero, List.getElem?_cons_zero]
              rw [this, List.getElem?_set_self (by omega)]
            | succ m =>
              have := hin m (by simpa using hm)
              simp only [List.getElem?_cons_succ]
              rw [← this]
              congr 2
              push_cast
              omega
          · intro q hq
            have hne : chain_idx.toNat ≠ q := by
              simp only [List.length_cons, Nat.cast_add, Nat.cast_one] at hq
              omega
            rw [hout q (by
              simp only [List.length_cons, Nat.cast_add, Nat.cast_one] at hq
              omega), List.getElem?_set_ne hne]

/-- When the parent path of the leaf has exactly `leaf.b.height + 1` nodes, the array
`longest_chain` is the path in root-first order, every slot written. -/
theorem build_chain_of_exact_path (blocknodes : List blockchain_node) (leaf_idx : Nat)
    (leaf : blockchain_node) (path : List blockchain_node)
    (hleaf : blocknodes[leaf_idx]? = some leaf)
    (hpath : parent_path blocknodes leaf_idx = .done path)
    (hlen : path.length = leaf.b.height + 1) :
    build_chain blocknodes (Int.ofNat leaf_idx) = .done (path.reverse.map some) := by
  unfold parent_path at hpath
  obtain ⟨filled, hfill, hl, hin, -⟩ :=
    fill_chain_of_chain blocknodes blocknodes.length (some leaf_idx) (leaf.b.height : Int)
      (List.replicate (leaf.b.height + 1) none) path hpath
      (by rw [hlen]; push_cast; omega) (by simp)
  have hnot : ¬ (Int.ofNat leaf_idx < 0) := by
    simp only [Int.ofNat_eq_coe]
    omega
  have htn : (Int.ofNat leaf_idx).toNat = leaf_idx := rfl
  simp only [build_chain, if_neg hnot, htn, hleaf, hfill, Run.done.injEq]
  apply List.ext_getElem?
  intro q
  simp only [List.length_replicate] at hl
  by_cases hq : q < leaf.b.height + 1
  · have h1 := hin (leaf.b.height - q) (by omega)
    have h2 : ((leaf.b.height : Int) - ((leaf.b.height - q : Nat) : Int)).toNat = q := by
      omega
    rw [h2] at h1
    rw [h1, List.getElem?_map, List.getElem?_reverse (by omega)]
    have h3 : path.length - 1 - q = leaf.b.height - q := by omega
    rw [h3]
    have h4 : leaf.b.height - q < path.length := by omega
    simp [List.getElem?_eq_getElem h4]
  · rw [List.getElem?_eq_none (by omega), List.getElem?_eq_none (by simp; omega)]

/-- An arena is a lowering of itself. -/
theorem flags_lowered_refl (nodes : List blockchain_node) : flags_lowered nodes nodes :=
  ⟨rfl, fun _ node h => ⟨node, h, rfl, rfl, id⟩⟩

/-- Lowerings compose. -/
theorem flags_lowered_trans (a b c : List blockchain_node)
    (h1 : flags_lowered a b) (h2 : flags_lowered b c) : flags_lowered a c := by
  refine ⟨h2.1.trans h1.1, ?_⟩
  intro k node hk
  obtain ⟨n1, hk1, hp1, hb1, hv1⟩ := h1.2 k node hk
  obtain ⟨n2, hk2, hp2, hb2, hv2⟩ := h2.2 k n1 hk1
  exact ⟨n2, hk2, hp2.trans hp1, hb2.trans hb1, fun h => hv1 (hv2 h)⟩

/-- Clearing the flag of one slot lowers the arena. -/
theorem flags_lowered_set (nodes : List blockchain_node) (i : Nat) (node : blockchain_node)
    (h : nodes[i]? = some node) :
    flags_lowered nodes (nodes.set i { node with is_valid := false }) := by
  refine ⟨by simp, ?_⟩
  intro k nk hk
  by_cases hik : i = k
  · subst hik
    rw [h] at hk
    cases hk
    refine ⟨{ node with is_valid := false }, ?_, rfl, rfl, ?_⟩
    · exact List.getElem?_set_self (List.getElem?_eq_some.mp h).1
    · intro hf
      simp at hf
  · exact ⟨nk, by rw [List.getElem?_set_ne hik]; exact hk, rfl, rfl, id⟩

/-- A slot of the lowered arena comes from the same slot of the arena before. -/
theorem flags_lowered_getElem? (before after : List blockchain_node)
    (h : flags_lowered before after) (k : Nat) (node' : blockchain_node)
    (hk : after[k]? = some node') :
    ∃ node, before[k]? = some node ∧ node'.parent = node.parent ∧ node'.b = node.b ∧
      (node'.is_valid = true → node.is_valid = true) := by
  have hlt : k < before.length := by
    rw [← h.1]
    exact (List.getElem?_eq_some.mp hk).1
  obtain ⟨n', hk', hp, hb, hv⟩ := h.2 k before[k] (List.getElem?_eq_getElem hlt)
  rw [hk] at hk'
  cases hk'
  exact ⟨before[k], List.getElem?_eq_getElem hlt, hp, hb, hv⟩

/-- The first loop of `valid_node_after_tree` does not read validity flags. -/
theorem find_previous_transaction_flags (env : Env) (before after : List blockchain_node)
    (h : flags_lowered before after) (prev : hash_output) (fuel : Nat) :
    ∀ p, find_previous_transaction env after prev fuel p =
      find_previous_transaction env before prev fuel p := by
  induction fuel with
  | zero =>
    intro p
    cases p <;> simp [find_previous_transaction]
  | succ fuel ih =>
    intro p
    cases p with
    | none => simp [find_previous_transaction]
    | some a =>
      simp only [find_previous_transaction]
      cases hb : before[a]? with
      | none =>
        have : after[a]? = none := by
          rw [List.getElem?_eq_none_iff] at hb ⊢
          rw [h.1]
          exact hb
        rw [this]
      | some node =>
        obtain ⟨node', ha, hp, hbb, -⟩ := h.2 a node hb
        simp only [ha, hp, hbb, ih]

/-- The second loop of `valid_node_after_tree` does not read validity flags. -/
theorem already_spent_flags (before after : List blockchain_node)
    (h : flags_lowered before after) (prev : hash_output) (fuel : Nat) :
    ∀ p, already_spent after prev fuel p = already_spent before prev fuel p := by
  induction fuel with
  | zero =>
    intro p
    cases p <;> simp [already_spent]
  | succ fuel ih =>
    intro p
    cases p with
    | none => simp [already_spent]
    | some a =>
      simp only [already_spent]
      cases hb : before[a]? with
      | none =>
        have : after[a]? = none := by
          rw [List.getElem?_eq_none_iff] at hb ⊢
          rw [h.1]
          exact hb
        rw [this]
      | some node =>
        obtain ⟨node', ha, hp, hbb, -⟩ := h.2 a node hb
        simp only [ha, hp, hbb, ih]

/-- The function `valid_node_after_tree` reads the parent references and the blocks only. -/
theorem valid_node_after_tree_flags (env : Env) (before after : List blockchain_node)
    (h : flags_lowered before after) (node node' : blockchain_node)
    (hp : node'.parent = node.parent) (hb : node'.b = node.b) :
    valid_node_after_tree env after node' = valid_node_after_tree env before node := by
  unfold valid_node_after_tree valid_node_after_tree_fuel
  rw [h.1, hp, hb]
  simp only [find_previous_transaction_flags env before after h,
    already_spent_flags before after h]

/-- The ancestry-validation loop only clears validity flags: it changes no parent reference
and no block, and sets no flag. -/
theorem validate_nodes_from_flags (env : Env) (n : Nat) :
    ∀ (i : Nat) (nodes result : List blockchain_node),
      validate_nodes_from env n i nodes = .done result → flags_lowered nodes result := by
  induction n with
  | zero =>
    intro i nodes result h
    simp only [validate_nodes_from, Run.done.injEq] at h
    subst h
    exact flags_lowered_refl nodes
  | succ n ih =>
    intro i nodes result h
    simp only [validate_nodes_from] at h
    cases hget : nodes[i]? with
    | none => simp [hget] at h
    | some blocknode =>
      simp only [hget] at h
      cases hv : valid_node_after_tree env nodes blocknode with
      | undefined => simp [hv] at h
      | loops => simp [hv] at h
      | done r =>
        simp only [hv] at h
        have hstep : flags_lowered nodes
            (if r = 0 then nodes.set i { blocknode with is_valid := false } else nodes) := by
          split_ifs
          · exact flags_lowered_set nodes i blocknode hget
          · exact flags_lowered_refl nodes
        exact flags_lowered_trans _ _ _ hstep (ih _ _ _ h)

/-- After the ancestry-validation loop, a slot it covered that is still valid passes
`valid_node_after_tree` in the final arena. -/
theorem validate_nodes_from_checked (env : Env) (n : Nat) :
    ∀ (i : Nat) (nodes result : List blockchain_node),
      validate_nodes_from env n i nodes = .done result →
      ∀ k node, i ≤ k → k < i + n → result[k]? = some node → node.is_valid = true →
        valid_node_after_tree env result node = .done 1 := by
  induction n with
  | zero =>
    intro i nodes result _ k node h1 h2
    omega
  | succ n ih =>
    intro i nodes result h k node h1 h2 hk hvalid
    simp only [validate_nodes_from] at h
    cases hget : nodes[i]? with
    | none => simp [hget] at h
    | some blocknode =>
      simp only [hget] at h
      cases hv : valid_node_after_tree env nodes blocknode with
      | undefined => simp [hv] at h
      | loops => simp [hv] at h
      | done r =>
        simp only [hv] at h
        by_cases hik : i = k
        · subst hik
          have hrest := validate_nodes_from_flags env n _ _ _ h
          obtain ⟨mid, hmid, hp, hb, hval⟩ := flags_lowered_getElem? _ _ hrest i node hk
          have hr : r ≠ 0 := by
            intro hr0
            rw [if_pos hr0, List.getElem?_set_self (List.getElem?_eq_some.mp hget).1] at hmid
            cases hmid
            have := hval hvalid
            simp at this
          rw [if_neg hr] at hmid h
          rw [hget] at hmid
          cases hmid
          have hall := validate_nodes_from_flags env n _ _ _ h
          rw [valid_node_after_tree_flags env nodes result hall blocknode node hp hb, hv]
          have h01 : r = 0 ∨ r = 1 := by
            unfold valid_node_after_tree valid_node_after_tree_fuel at hv
            split at hv
            · split at hv
              · simp at hv
              · simp at hv
              · simp only [Run.done.injEq] at hv; exact Or.inl hv.symm
              · split at hv
                · split at hv
                  · simp at hv
                  · simp at hv
                  · simp only [Run.done.injEq] at hv; exact Or.inl hv.symm
                  · simp only [Run.done.injEq] at hv; exact Or.inr hv.symm
                · simp only [Run.done.injEq] at hv; exact Or.inl hv.symm
            · simp only [Run.done.injEq] at hv; exact Or.inr hv.symm
          rcases h01 with h0 | h1'
          · exact absurd h0 hr
          · rw [h1']
        · exact ih (i + 1) _ result h k node (by omega) (by omega) hk hvalid

/-- The nodes after a node on a walk are the walk from its parent. -/
theorem chain_from_suffix (blocknodes : List blockchain_node) :
    ∀ (earlier : List blockchain_node) (fuel : Nat) (p : Option Nat)
      (node : blockchain_node) (later : List blockchain_node),
      chain_from blocknodes fuel p = .done (earlier ++ node :: later) →
      ∃ fuel', chain_from blocknodes fuel' node.parent = .done later := by
  intro earlier
  induction earlier with
  | nil =>
    intro fuel p node later h
    cases fuel with
    | zero => cases p <;> simp [chain_from] at h
    | succ fuel =>
      cases p with
      | none => simp [chain_from] at h
      | some n =>
        simp only [chain_from] at h
        cases hget : blocknodes[n]? with
        | none => simp [hget] at h
        | some x =>
          simp only [hget] at h
          cases hrest : chain_from blocknodes fuel x.parent with
          | undefined => simp [hrest] at h
          | loops => simp [hrest] at h
          | done rest =>
            simp only [hrest, Run.done.injEq, List.nil_append, List.cons.injEq] at h
            obtain ⟨h1, h2⟩ := h
            subst h1
            subst h2
            exact ⟨fuel, hrest⟩
  | cons e earlier ih =>
    intro fuel p node later h
    cases fuel with
    | zero => cases p <;> simp [chain_from] at h
    | succ fuel =>
      cases p with
      | none => simp [chain_from] at h
      | some n =>
        simp only [chain_from] at h
        cases hget : blocknodes[n]? with
        | none => simp [hget] at h
        | some x =>
          simp only [hget] at h
          cases hrest : chain_from blocknodes fuel x.parent with
          | undefined => simp [hrest] at h
          | loops => simp [hrest] at h
          | done rest =>
            simp only [hrest, Run.done.injEq, List.cons_append, List.cons.injEq] at h
            obtain ⟨-, h2⟩ := h
            subst h2
            exact ih fuel x.parent node later hrest

/-- A leaf the selection loop stops at is an admitted slot with a fully valid path. -/
theorem select_leaf_fully_valid (blocknodes : List blockchain_node) (vblockc : Nat)
    (leaf : Nat) (h : select_leaf blocknodes vblockc = .done (Int.ofNat leaf)) :
    leaf < vblockc ∧ fully_valid blocknodes leaf = true := by
  induction vblockc with
  | zero => simp [select_leaf] at h
  | succ v ih =>
    simp only [select_leaf, path_is_valid_of_chain] at h
    cases hp : chain_from blocknodes blocknodes.length (some v) with
    | undefined => simp [hp] at h
    | loops => simp [hp] at h
    | done path =>
      simp only [hp, Bool.true_and] at h
      split_ifs at h with hall
      · simp only [Run.done.injEq, Int.ofNat_eq_coe, Nat.cast_inj] at h
        subst h
        refine ⟨Nat.lt_succ_self _, ?_⟩
        unfold fully_valid parent_path
        rw [hp]
        exact hall
      · exact ⟨Nat.lt_succ_of_lt (ih h).1, (ih h).2⟩

/-- The selection loop has found every slot above the leaf it stops at without a fully valid
path. -/
theorem select_leaf_skipped (blocknodes : List blockchain_node) (vblockc : Nat)
    (leaf : Nat) (h : select_leaf blocknodes vblockc = .done (Int.ofNat leaf)) :
    ∀ j, leaf < j → j < vblockc → fully_valid blocknodes j = false := by
  induction vblockc with
  | zero =>
    intro j _ hj
    omega
  | succ v ih =>
    intro j h1 h2
    simp only [select_leaf, path_is_valid_of_chain] at h
    cases hp : chain_from blocknodes blocknodes.length (some v) with
    | undefined => simp [hp] at h
    | loops => simp [hp] at h
    | done path =>
      simp only [hp, Bool.true_and] at h
      split_ifs at h with hall
      · simp only [Run.done.injEq, Int.ofNat_eq_coe, Nat.cast_inj] at h
        omega
      · rcases Nat.lt_succ_iff_lt_or_eq.mp h2 with hlt | heq
        · exact ih h j h1 hlt
        · subst heq
          unfold fully_valid parent_path
          rw [hp]
          simpa using hall

/-- In the validated tree every admitted node that is valid passes
`valid_node_after_tree`. -/
theorem validated_tree_checked (env : Env) (uninit : Nat → blockchain_node)
    (input : List block) (blocknodes : List blockchain_node) (vblockc : Nat)
    (h : validated_tree env uninit input = .done (blocknodes, vblockc))
    (k : Nat) (node : blockchain_node) (hk : k < vblockc)
    (hnode : blocknodes[k]? = some node) (hvalid : node.is_valid = true) :
    valid_node_after_tree env blocknodes node = .done 1 := by
  unfold validated_tree at h
  simp only [] at h
  cases hb : build_tree_from env (env.qsort compare_by_height input) 0
      (List.map uninit (List.range (env.qsort compare_by_height input).length)) 0 with
  | undefined => simp [hb] at h
  | loops => simp [hb] at h
  | done r =>
    obtain ⟨nodes, v⟩ := r
    simp only [hb] at h
    cases hv : validate_nodes_from env v 0 nodes with
    | undefined => simp [hv] at h
    | loops => simp [hv] at h
    | done result =>
      simp only [hv, Run.done.injEq, Prod.mk.injEq] at h
      obtain ⟨h1, h2⟩ := h
      subst h1
      subst h2
      exact validate_nodes_from_checked env v 0 nodes result hv k node (Nat.zero_le k)
        (by omega) hnode hvalid

/-- The test `byte32_is_zero` holds exactly for the value 0. -/
theorem byte32_is_zero_iff (a : Nat) : byte32_is_zero a = true ↔ a = 0 := by
  simp [byte32_is_zero]

/-- Whatever the input and the uninitialised memory: after the ancestry-validation pass, an
admitted node whose normal transaction spends the same transaction as one of its strict
ancestors has `is_valid = 0`. -/
theorem double_spender_invalidated (env : Env) (uninit : Nat → blockchain_node)
    (input : List block) (blocknodes : List blockchain_node) (vblockc : Nat)
    (k : Nat) (deeper : blockchain_node) (anc : List blockchain_node)
    (htree : validated_tree env uninit input = .done (blocknodes, vblockc))
    (hk : k < vblockc) (hnode : blocknodes[k]? = some deeper)
    (hanc : ancestors blocknodes deeper = .done anc)
    (hspend : deeper.b.normal_tx.prev_transaction_hash ≠ 0)
    (hdup : ∃ a ∈ anc, a.b.normal_tx.prev_transaction_hash =
      deeper.b.normal_tx.prev_transaction_hash) :
    deeper.is_valid = false := by
  cases hv : deeper.is_valid with
  | false => rfl
  | true =>
    have h1 := validated_tree_checked env uninit input blocknodes vblockc htree k deeper hk
      hnode hv
    rcases (valid_node_after_tree_one_iff env blocknodes deeper).mp h1 with hz | hrest
    · exact absurd ((byte32_is_zero_iff _).mp hz) hspend
    · obtain ⟨anc', hanc', -, -, hno⟩ := hrest
      rw [hanc] at hanc'
      cases hanc'
      obtain ⟨a, ha, hEq⟩ := hdup
      exact absurd hEq (hno a ha)

/-- Whatever the input and the uninitialised memory: an admitted node on the selected chain
that carries a normal transaction spends a transaction that none of the nodes after it on
the chain (its ancestors) spends. -/
theorem admitted_node_spends_once (env : Env) (uninit : Nat → blockchain_node)
    (input : List block) (blocknodes : List blockchain_node) (vblockc : Nat)
    (chain earlier later : List blockchain_node) (deeper : blockchain_node)
    (htree : validated_tree env uninit input = .done (blocknodes, vblockc))
    (hchain : selected_chain env uninit input = .done chain)
    (hsplit : chain = earlier ++ deeper :: later)
    (hadm : ∃ k, k < vblockc ∧ blocknodes[k]? = some deeper)
    (hspend : deeper.b.normal_tx.prev_transaction_hash ≠ 0) :
    ∀ a ∈ later, a.b.normal_tx.prev_transaction_hash ≠
      deeper.b.normal_tx.prev_transaction_hash := by
  unfold selected_chain at hchain
  rw [htree] at hchain
  simp only [] at hchain
  cases hsel : select_leaf blocknodes vblockc with
  | undefined => simp [hsel] at hchain
  | loops => simp [hsel] at hchain
  | done leaf_idx =>
    simp only [hsel] at hchain
    split_ifs at hchain with hneg
    obtain ⟨leaf, hleaf⟩ := Int.eq_ofNat_of_zero_le (not_lt.mp hneg)
    subst hleaf
    have hfv := (select_leaf_fully_valid blocknodes vblockc leaf hsel).2
    unfold fully_valid at hfv
    simp only [Int.toNat_ofNat] at hchain
    rw [hchain] at hfv
    simp only [List.all_eq_true] at hfv
    have hvalid : deeper.is_valid = true := hfv deeper (by rw [hsplit]; simp)
    obtain ⟨fuel', hlater⟩ := chain_from_suffix blocknodes earlier blocknodes.length
      (some leaf) deeper later (by
        unfold parent_path at hchain
        rw [hchain, hsplit])
    have hanc : ancestors blocknodes deeper = .done later :=
      chain_from_arena_fuel blocknodes fuel' deeper.parent later hlater
    intro a ha hEq
    obtain ⟨k, hk, hnode⟩ := hadm
    have := double_spender_invalidated env uninit input blocknodes vblockc k deeper later
      htree hk hnode hanc hspend ⟨a, ha, hEq⟩
    rw [hvalid] at this
    exact Bool.noConfusion this

/-- A result of the parent search other than -1 is a slot inside the searched range whose
block hash is `b.prev_block_hash`. -/
theorem parentnode_of_block_from_found (env : Env) (b : block)
    (blocknodes : List blockchain_node) (n : Nat) :
    ∀ (i : Nat) (r : Int), parentnode_of_block_from env b blocknodes i n = .done r →
      r = -1 ∨ ∃ j : Nat, r = Int.ofNat j ∧ i ≤ j ∧ j < i + n ∧
        ∃ node : blockchain_node, blocknodes[j]? = some node ∧
          env.block_hash node.b = b.prev_block_hash := by
  induction n with
  | zero =>
    intro i r h
    simp only [parentnode_of_block_from, Run.done.injEq] at h
    exact Or.inl h.symm
  | succ n ih =>
    intro i r h
    simp only [parentnode_of_block_from] at h
    cases hget : blocknodes[i]? with
    | none => simp [hget] at h
    | some node =>
      simp only [hget] at h
      split_ifs at h with hm
      · simp only [Run.done.injEq] at h
        exact Or.inr ⟨i, h.symm, le_refl i, by omega, node, hget,
          (byte32_cmp_eq_zero _ _).mp hm⟩
      · rcases ih (i + 1) r h with h1 | ⟨j, hj, h2, h3, hnode⟩
        · exact Or.inl h1
        · exact Or.inr ⟨j, hj, by omega, by omega, hnode⟩

/-- The parent search returns when the searched range lies inside the array. -/
theorem parentnode_of_block_from_total (env : Env) (b : block)
    (blocknodes : List blockchain_node) (n : Nat) :
    ∀ (i : Nat), i + n ≤ blocknodes.length →
      ∃ r, parentnode_of_block_from env b blocknodes i n = .done r := by
  induction n with
  | zero =>
    intro i _
    exact ⟨-1, rfl⟩
  | succ n ih =>
    intro i hi
    simp only [parentnode_of_block_from]
    have hlt : i < blocknodes.length := by omega
    rw [List.getElem?_eq_getElem hlt]
    simp only []
    split_ifs
    · exact ⟨_, rfl⟩
    · exact ih (i + 1) (by omega)

/-- Admitting a node linked to an earlier admitted slot keeps the tree linked. -/
theorem tree_linked_set (env : Env) (uninit : Nat → blockchain_node)
    (blocknodes : List blockchain_node) (vblockc : Nat) (node : blockchain_node)
    (hin : vblockc < blocknodes.length)
    (h : tree_linked env uninit blocknodes vblockc)
    (hnew : ∀ p, node.parent = some p →
      p < vblockc ∧ ∃ parent : blockchain_node, blocknodes[p]? = some parent ∧
        node.b.prev_block_hash = env.block_hash parent.b) :
    tree_linked env uninit (blocknodes.set vblockc node) (vblockc + 1) := by
  refine ⟨?_, ?_⟩
  · intro j h1 h2
    rw [List.getElem?_set_ne (by omega)]
    exact h.1 j (by omega) (by simpa using h2)
  · intro k nk hk hget p hp
    by_cases hkv : k = vblockc
    · subst hkv
      rw [List.getElem?_set_self hin] at hget
      cases hget
      obtain ⟨hlt, parent, hpar, hlink⟩ := hnew p hp
      refine ⟨hlt, parent, ?_, hlink⟩
      rw [List.getElem?_set_ne (by omega)]
      exact hpar
    · rw [List.getElem?_set_ne (fun e => hkv e.symm)] at hget
      obtain ⟨hlt, parent, hpar, hlink⟩ := h.2 k nk (by omega) hget p hp
      refine ⟨hlt, parent, ?_, hlink⟩
      rw [List.getElem?_set_ne (by omega)]
      exact hpar

/-- When no uninitialised slot matches a parent hash, the tree-building loop returns and
leaves every admitted node linked by hash to an earlier admitted slot. -/
theorem build_tree_from_linked (env : Env) (uninit : Nat → blockchain_node)
    (blocks : List block) (hclean : no_stale_match env uninit blocks) :
    ∀ (rest : List block) (i : Nat) (blocknodes : List blockchain_node) (vblockc : Nat),
      (∀ b ∈ rest, b ∈ blocks) → i + rest.length = blocknodes.length → vblockc ≤ i →
      tree_linked env uninit blocknodes vblockc →
      ∃ result final, build_tree_from env rest i blocknodes vblockc = .done (result, final) ∧
        result.length = blocknodes.length ∧ final ≤ result.length ∧
        tree_linked env uninit result final := by
  intro rest
  induction rest with
  | nil =>
    intro i blocknodes vblockc _ hlen hv hinv
    exact ⟨blocknodes, vblockc, rfl, rfl, by simp at hlen; omega, hinv⟩
  | cons b rest ih =>
    intro i blocknodes vblockc hmem hlen hv hinv
    simp only [List.length_cons] at hlen
    have hin : vblockc < blocknodes.length := by omega
    have hrest : ∀ b' ∈ rest, b' ∈ blocks := fun b' hb' => hmem b' (List.mem_cons_of_mem b hb')
    simp only [build_tree_from]
    split_ifs with hvalid h0
    · obtain ⟨result, final, hrun, hl, hf, hlinked⟩ :=
        ih (i + 1) (blocknodes.set vblockc ⟨none, b, true⟩) (vblockc + 1) hrest
          (by simp only [List.length_set]; omega) (by omega)
          (tree_linked_set env uninit blocknodes vblockc _ hin hinv
            (fun p hp => by simp at hp))
      exact ⟨result, final, hrun, by simpa using hl, hf, hlinked⟩
    · obtain ⟨r, hr⟩ := parentnode_of_block_from_total env b blocknodes i 0 (by omega)
      have hr' : parentnode_of_block env b blocknodes i = .done r := by
        unfold parentnode_of_block
        simpa using hr
      simp only [hr']
      split_ifs with hneg
      · obtain ⟨result, final, hrun, hl, hf, hlinked⟩ :=
          ih (i + 1) (blocknodes.set vblockc ⟨none, b, false⟩) (vblockc + 1) hrest
            (by simp only [List.length_set]; omega) (by omega)
            (tree_linked_set env uninit blocknodes vblockc _ hin hinv
              (fun p hp => by simp at hp))
        exact ⟨result, final, hrun, by simpa using hl, hf, hlinked⟩
      · have hfound := parentnode_of_block_from_found env b blocknodes i 0 r (by
          unfold parentnode_of_block at hr'
          exact hr')
        rcases hfound with h1 | ⟨j, hj, -, hji, pn, hpn, hhash⟩
        · exact absurd h1 hneg
        · subst hj
          have hjv : j < vblockc := by
            by_contra hge
            have hu := hinv.1 j (by omega) (by omega)
            rw [hpn] at hu
            cases hu
            exact hclean j b (hmem b (List.mem_cons_self b rest)) hhash
          obtain ⟨result, final, hrun, hl, hf, hlinked⟩ :=
            ih (i + 1) (blocknodes.set vblockc ⟨some (Int.ofNat j).toNat, b, true⟩)
              (vblockc + 1) hrest
              (by simp only [List.length_set]; omega) (by omega)
              (tree_linked_set env uninit blocknodes vblockc _ hin hinv
                (fun p hp => by
                  simp only [Int.toNat_ofNat, Option.some.injEq] at hp
                  subst hp
                  exact ⟨hjv, pn, hpn, hhash.symm⟩))
          exact ⟨result, final, hrun, by simpa using hl, hf, hlinked⟩
    · obtain ⟨result, final, hrun, hl, hf, hlinked⟩ :=
        ih (i + 1) blocknodes vblockc hrest (by omega) (by omega) hinv
      exact ⟨result, final, hrun, hl, hf, hlinked⟩

/-- On a node whose parent references lead to a root, `valid_node_after_tree` returns 0
or 1. -/
theorem valid_node_after_tree_total (env : Env) (blocknodes : List blockchain_node)
    (node : blockchain_node) (anc : List blockchain_node)
    (h : ancestors blocknodes node = .done anc) :
    valid_node_after_tree env blocknodes node = .done 0 ∨
      valid_node_after_tree env blocknodes node = .done 1 := by
  unfold ancestors at h
  unfold valid_node_after_tree valid_node_after_tree_fuel
  rw [find_previous_transaction_of_chain env _ _ _ _ _ h, already_spent_of_chain _ _ _ _ _ h]
  split_ifs
  · cases matching_transaction env node.b.normal_tx.prev_transaction_hash anc with
    | none => exact Or.inl rfl
    | some t =>
      simp only []
      split_ifs
      · cases anc.any (fun a => decide (a.b.normal_tx.prev_transaction_hash =
            node.b.normal_tx.prev_transaction_hash)) with
        | true => exact Or.inl rfl
        | false => exact Or.inr rfl
      · exact Or.inl rfl
  · exact Or.inr rfl

/-- In a well-linked arena the parent path of an admitted slot reaches a root and is linked
by hash. -/
theorem well_linked_path (env : Env) (blocknodes : List blockchain_node) (vblockc : Nat)
    (hv : vblockc ≤ blocknodes.length) (h : well_linked env blocknodes vblockc) :
    ∀ (fuel k : Nat), k < vblockc → k < fuel →
      ∃ node rest, blocknodes[k]? = some node ∧
        chain_from blocknodes fuel (some k) = .done (node :: rest) ∧
        hash_linked env (node :: rest) = true := by
  intro fuel
  induction fuel with
  | zero =>
    intro k _ hk
    omega
  | succ fuel ih =>
    intro k hk hf
    have hlt : k < blocknodes.length := by omega
    have hget : blocknodes[k]? = some blocknodes[k] := List.getElem?_eq_getElem hlt
    cases hp : blocknodes[k].parent with
    | none =>
      refine ⟨blocknodes[k], [], hget, ?_, rfl⟩
      cases fuel <;> simp [chain_from, hget, hp]
    | some p =>
      obtain ⟨hpk, parent, hpar, hlink⟩ := h k blocknodes[k] hk hget p hp
      obtain ⟨pn, rest, hpn, hchain, hl⟩ := ih p (by omega) (by omega)
      rw [hpar] at hpn
      cases hpn
      refine ⟨blocknodes[k], parent :: rest, hget, ?_, ?_⟩
      · simp [chain_from, hget, hp, hchain]
      · simp only [hash_linked, hlink, decide_True, Bool.true_and]
        exact hl

/-- Clearing validity flags keeps an arena well linked. -/
theorem well_linked_of_flags (env : Env) (before after : List blockchain_node)
    (vblockc : Nat) (hf : flags_lowered before after)
    (h : well_linked env before vblockc) : well_linked env after vblockc := by
  intro k node' hk hget p hp
  obtain ⟨node, hb, hpar, hblk, -⟩ := flags_lowered_getElem? before after hf k node' hget
  obtain ⟨hlt, parent, hparent, hlink⟩ := h k node hk hb p (by rw [← hpar]; exact hp)
  obtain ⟨parent', hp', -, hb', -⟩ := hf.2 p parent hparent
  exact ⟨hlt, parent', hp', by rw [hblk, hb', hlink]⟩

/-- On a well-linked arena the ancestry-validation loop returns. -/
theorem validate_nodes_from_total (env : Env) (vblockc : Nat) (n : Nat) :
    ∀ (i : Nat) (nodes : List blockchain_node), i + n ≤ vblockc →
      vblockc ≤ nodes.length → well_linked env nodes vblockc →
      ∃ result, validate_nodes_from env n i nodes = .done result := by
  induction n with
  | zero =>
    intro i nodes _ _ _
    exact ⟨nodes, rfl⟩
  | succ n ih =>
    intro i nodes hi hv hl
    have hlt : i < nodes.length := by omega
    have hget : nodes[i]? = some nodes[i] := List.getElem?_eq_getElem hlt
    simp only [validate_nodes_from, hget]
    have hanc : ∃ anc, ancestors nodes nodes[i] = .done anc := by
      unfold ancestors
      cases hp : nodes[i].parent with
      | none => exact ⟨[], by cases nodes.length <;> simp [chain_from]⟩
      | some p =>
        obtain ⟨hpk, -⟩ := hl i nodes[i] (by omega) hget p hp
        obtain ⟨pn, rest, -, hchain, -⟩ :=
          well_linked_path env nodes vblockc hv hl nodes.length p (by omega) (by omega)
        exact ⟨pn :: rest, hchain⟩
    obtain ⟨anc, hanc⟩ := hanc
    rcases valid_node_after_tree_total env nodes nodes[i] anc hanc with h0 | h1
    · simp only [h0, if_true]
      have hstep := flags_lowered_set nodes i nodes[i] hget
      exact ih (i + 1) _ (by omega) (by simp only [List.length_set]; exact hv)
        (well_linked_of_flags env _ _ vblockc hstep hl)
    · simp only [h1]
      exact ih (i + 1) _ (by omega) hv hl

/-- When no uninitialised slot matches a parent hash, tree building and ancestry validation
return a well-linked arena. -/
theorem validated_tree_linked (env : Env) (uninit : Nat → blockchain_node)
    (input : List block)
    (hclean : no_stale_match env uninit (env.qsort compare_by_height input)) :
    ∃ blocknodes vblockc, validated_tree env uninit input = .done (blocknodes, vblockc) ∧
      vblockc ≤ blocknodes.length ∧ well_linked env blocknodes vblockc := by
  obtain ⟨built, v, hbuild, hlen, hv, hlinked⟩ :=
    build_tree_from_linked env uninit _ hclean (env.qsort compare_by_height input) 0
      (List.map uninit (List.range (env.qsort compare_by_height input).length)) 0
      (fun b hb => hb) (by simp) (le_refl 0)
      ⟨fun j _ hj => by
        simp only [List.length_map, List.length_range] at hj
        simp [List.getElem?_map, List.getElem?_range hj], fun k node hk => by omega⟩
  have hwl : well_linked env built v := hlinked.2
  obtain ⟨result, hres⟩ := validate_nodes_from_total env v v 0 built (by omega) hv hwl
  have hflags := validate_nodes_from_flags env v 0 built result hres
  refine ⟨result, v, ?_, ?_, well_linked_of_flags env built result v hflags hwl⟩
  · unfold validated_tree
    simp only [hbuild, hres]
  · rw [hflags.1]
    exact hv

/-- When no block left in uninitialised memory has a hash that an input block names as its
parent, `main` builds and validates its tree, and if some admitted node has a fully valid
parent path the selected chain exists, has `is_valid = 1` on every node and links every node
to its parent by hash. -/
theorem selected_chain_linked (env : Env) (uninit : Nat → blockchain_node)
    (input : List block)
    (hclean : no_stale_match env uninit (env.qsort compare_by_height input)) :
    ∃ blocknodes vblockc, validated_tree env uninit input = .done (blocknodes, vblockc) ∧
      ((∃ j, j < vblockc ∧ fully_valid blocknodes j = true) →
        ∃ chain, selected_chain env uninit input = .done chain ∧
          (∀ node ∈ chain, node.is_valid = true) ∧ hash_linked env chain = true) := by
  obtain ⟨blocknodes, vblockc, htree, hv, hl⟩ := validated_tree_linked env uninit input hclean
  refine ⟨blocknodes, vblockc, htree, ?_⟩
  intro hsome
  have hpath : ∀ j, j < vblockc → ∃ node rest, blocknodes[j]? = some node ∧
      parent_path blocknodes j = .done (node :: rest) ∧
      hash_linked env (node :: rest) = true :=
    fun j hj => well_linked_path env blocknodes vblockc hv hl blocknodes.length j hj
      (by omega)
  have hroot : ∀ j, j < vblockc → reaches_root blocknodes j = true := by
    intro j hj
    obtain ⟨node, rest, -, hp, -⟩ := hpath j hj
    unfold reaches_root
    rw [hp]
  obtain ⟨k, hsel, hk, hfv, -⟩ :=
    select_leaf_greatest blocknodes vblockc hroot hsome
  obtain ⟨node, rest, -, hp, hlinked⟩ := hpath k hk
  refine ⟨node :: rest, ?_, ?_, hlinked⟩
  · unfold selected_chain
    rw [htree]
    simp only [hsel]
    have hnot : ¬ (Int.ofNat k < 0) := by
      simp only [Int.ofNat_eq_coe]
      omega
    rw [if_neg hnot]
    exact hp
  · unfold fully_valid at hfv
    rw [hp] at hfv
    simpa [List.all_eq_true] using hfv

/-- A parent path starts with the node of its slot. -/
theorem parent_path_head (blocknodes : List blockchain_node) (k : Nat)
    (path : List blockchain_node) (h : parent_path blocknodes k = .done path) :
    ∃ node rest, blocknodes[k]? = some node ∧ path = node :: rest := by
  unfold parent_path at h
  cases hl : blocknodes.length with
  | zero => simp [hl, chain_from] at h
  | succ n =>
    rw [hl] at h
    simp only [chain_from] at h
    cases hget : blocknodes[k]? with
    | none => simp [hget] at h
    | some node =>
      simp only [hget] at h
      cases hrest : chain_from blocknodes n node.parent with
      | undefined => simp [hrest] at h
      | loops => simp [hrest] at h
      | done rest =>
        simp only [hrest, Run.done.injEq] at h
        exact ⟨node, rest, rfl, h.symm⟩

/-- When the admitted nodes stand in non-decreasing height order and every fully valid path
has as many nodes as the height of its first node plus one, no fully valid path is longer
than the selected one. -/
theorem selected_path_longest (blocknodes : List blockchain_node) (vblockc leaf : Nat)
    (hsel : select_leaf blocknodes vblockc = .done (Int.ofNat leaf))
    (hsorted : ∀ (i j : Nat) (ni nj : blockchain_node), i ≤ j → j < vblockc →
      blocknodes[i]? = some ni → blocknodes[j]? = some nj → ni.b.height ≤ nj.b.height)
    (hdepth : ∀ (j : Nat) (node : blockchain_node) (rest : List blockchain_node),
      j < vblockc → fully_valid blocknodes j = true →
      parent_path blocknodes j = .done (node :: rest) → rest.length = node.b.height) :
    ∀ (j : Nat) (other chain : List blockchain_node), j < vblockc →
      fully_valid blocknodes j = true → parent_path blocknodes j = .done other →
      parent_path blocknodes leaf = .done chain → other.length ≤ chain.length := by
  intro j other chain hj hfv hother hchain
  have hleaf := select_leaf_fully_valid blocknodes vblockc leaf hsel
  have hle : j ≤ leaf := by
    by_contra hgt
    have := select_leaf_skipped blocknodes vblockc leaf hsel j (by omega) hj
    rw [hfv] at this
    exact Bool.noConfusion this
  obtain ⟨nj, rj, hgj, hej⟩ := parent_path_head blocknodes j other hother
  obtain ⟨nl, rl, hgl, hel⟩ := parent_path_head blocknodes leaf chain hchain
  subst hej
  subst hel
  have h1 := hdepth j nj rj hj hfv hother
  have h2 := hdepth leaf nl rl hleaf.1 hleaf.2 hchain
  have h3 := hsorted j leaf nj nl hle hleaf.1 hgj hgl
  simp only [List.length_cons]
  omega

/-- Inside the array, the parent search returns -1 when no slot of its range matches, and
otherwise the first slot of its range that matches. -/
theorem parentnode_of_block_from_first (env : Env) (b : block)
    (blocknodes : List blockchain_node) (n : Nat) :
    ∀ (i : Nat), i + n ≤ blocknodes.length →
      (parentnode_of_block_from env b blocknodes i n = .done (-1) ∧
        ∀ j, i ≤ j → j < i + n → ¬ hash_matches env b blocknodes j) ∨
      ∃ j, parentnode_of_block_from env b blocknodes i n = .done (Int.ofNat j) ∧
        i ≤ j ∧ j < i + n ∧ hash_matches env b blocknodes j ∧
        ∀ j', i ≤ j' → j' < j → ¬ hash_matches env b blocknodes j' := by
  induction n with
  | zero =>
    intro i _
    exact Or.inl ⟨rfl, fun j h1 h2 => by omega⟩
  | succ n ih =>
    intro i hi
    have hlt : i < blocknodes.length := by omega
    have hget : blocknodes[i]? = some blocknodes[i] := List.getElem?_eq_getElem hlt
    simp only [parentnode_of_block_from, hget]
    by_cases hm : byte32_cmp (env.block_hash blocknodes[i].b) b.prev_block_hash = 0
    · rw [if_pos hm]
      exact Or.inr ⟨i, rfl, le_refl i, by omega,
        ⟨blocknodes[i], hget, (byte32_cmp_eq_zero _ _).mp hm⟩, fun j' h1 h2 => by omega⟩
    · rw [if_neg hm]
      have hno : ¬ hash_matches env b blocknodes i := by
        rintro ⟨node, hn, hh⟩
        rw [hget] at hn
        cases hn
        exact hm ((byte32_cmp_eq_zero _ _).mpr hh)
      rcases ih (i + 1) (by omega) with ⟨hr, hall⟩ | ⟨j, hr, h1, h2, hmj, hbefore⟩
      · refine Or.inl ⟨hr, ?_⟩
        intro j h1 h2
        rcases Nat.eq_or_lt_of_le h1 with he | hl
        · subst he
          exact hno
        · exact hall j (by omega) (by omega)
      · refine Or.inr ⟨j, hr, by omega, by omega, hmj, ?_⟩
        intro j' h1' h2'
        rcases Nat.eq_or_lt_of_le h1' with he | hl
        · subst he
          exact hno
        · exact hbefore j' (by omega) h2'

/-- The function `parentnode_of_block` returns the smallest matching index below `maximum`,
and -1 exactly when there is none. -/
theorem parentnode_of_block_smallest (env : Env) (b : block)
    (blocknodes : List blockchain_node) (maximum : Nat)
    (hmax : maximum ≤ blocknodes.length) :
    (∃ r, parentnode_of_block env b blocknodes maximum = .done r) ∧
    (∀ j : Nat, parentnode_of_block env b blocknodes maximum = .done (Int.ofNat j) ↔
      j < maximum ∧ hash_matches env b blocknodes j ∧
      ∀ j', j' < j → ¬ hash_matches env b blocknodes j') ∧
    (parentnode_of_block env b blocknodes maximum = .done (-1) ↔
      ∀ j, j < maximum → ¬ hash_matches env b blocknodes j) := by
  unfold parentnode_of_block
  rcases parentnode_of_block_from_first env b blocknodes maximum 0 (by omega) with
    ⟨hr, hall⟩ | ⟨j0, hr, -, h2, hm, hbefore⟩
  · simp only [Nat.zero_add] at hall
    refine ⟨⟨_, hr⟩, ?_, ?_⟩
    · intro j
      rw [hr]
      constructor
      · intro h
        simp only [Run.done.injEq, Int.ofNat_eq_coe] at h
        omega
      · rintro ⟨h1, h2, -⟩
        exact absurd h2 (hall j (Nat.zero_le j) h1)
    · rw [hr]
      exact ⟨fun _ j hj => hall j (Nat.zero_le j) hj, fun _ => rfl⟩
  · simp only [Nat.zero_add] at h2
    refine ⟨⟨_, hr⟩, ?_, ?_⟩
    · intro j
      rw [hr]
      constructor
      · intro h
        simp only [Run.done.injEq, Int.ofNat_eq_coe, Nat.cast_inj] at h
        subst h
        exact ⟨h2, hm, fun j' hj' => hbefore j' (Nat.zero_le j') hj'⟩
      · rintro ⟨h1, hmj, hfirst⟩
        have : j0 = j := by
          rcases Nat.lt_trichotomy j0 j with h | h | h
          · exact absurd hm (hfirst j0 h)
          · exact h
          · exact absurd hmj (hbefore j (Nat.zero_le j) h)
        rw [this]
    · rw [hr]
      constructor
      · intro h
        simp only [Run.done.injEq, Int.ofNat_eq_coe] at h
        omega
      · intro hall
        exact absurd hm (hall j0 h2)

/-- Whatever the uninitialised memory holds, the tree-building loop returns, and every slot
it has admitted has the shape the loop writes. -/
theorem build_tree_from_admitted (env : Env) :
    ∀ (rest : List block) (i : Nat) (blocknodes : List blockchain_node) (vblockc : Nat),
      i + rest.length = blocknodes.length → vblockc ≤ i →
      (∀ (k : Nat) (node : blockchain_node), k < vblockc → blocknodes[k]? = some node →
        admitted_shape env node) →
      ∃ result final, build_tree_from env rest i blocknodes vblockc = .done (result, final) ∧
        result.length = blocknodes.length ∧ final ≤ result.length ∧
        ∀ (k : Nat) (node : blockchain_node), k < final → result[k]? = some node →
          admitted_shape env node := by
  intro rest
  induction rest with
  | nil =>
    intro i blocknodes vblockc hlen hv hinv
    exact ⟨blocknodes, vblockc, rfl, rfl, by simp at hlen; omega, hinv⟩
  | cons b rest ih =>
    intro i blocknodes vblockc hlen hv hinv
    simp only [List.length_cons] at hlen
    have hin : vblockc < blocknodes.length := by omega
    have hstep : ∀ node : blockchain_node, admitted_shape env node →
        ∀ (k : Nat) (nk : blockchain_node), k < vblockc + 1 →
          (blocknodes.set vblockc node)[k]? = some nk → admitted_shape env nk := by
      intro node hnode k nk hk hget
      by_cases hkv : k = vblockc
      · subst hkv
        rw [List.getElem?_set_self hin] at hget
        cases hget
        exact hnode
      · rw [List.getElem?_set_ne (fun e => hkv e.symm)] at hget
        exact hinv k nk (by omega) hget
    simp only [build_tree_from]
    split_ifs with hvalid h0
    · have h1 : valid_block_before_tree env b = 1 := by
        rcases valid_block_before_tree_zero_or_one env b with h | h
        · exact absurd h hvalid
        · exact h
      obtain ⟨result, final, hrun, hl, hf, hall⟩ :=
        ih (i + 1) (blocknodes.set vblockc ⟨none, b, true⟩) (vblockc + 1)
          (by simp only [List.length_set]; omega) (by omega)
          (hstep _ ⟨h1, fun _ => ⟨rfl, rfl⟩, fun hne => absurd h0 hne⟩)
      exact ⟨result, final, hrun, by simpa using hl, hf, hall⟩
    · have h1 : valid_block_before_tree env b = 1 := by
        rcases valid_block_before_tree_zero_or_one env b with h | h
        · exact absurd h hvalid
        · exact h
      obtain ⟨r, hr⟩ := parentnode_of_block_from_total env b blocknodes i 0 (by omega)
      have hr' : parentnode_of_block env b blocknodes i = .done r := by
        unfold parentnode_of_block
        simpa using hr
      simp only [hr']
      split_ifs with hneg
      · obtain ⟨result, final, hrun, hl, hf, hall⟩ :=
          ih (i + 1) (blocknodes.set vblockc ⟨none, b, false⟩) (vblockc + 1)
            (by simp only [List.length_set]; omega) (by omega)
            (hstep _ ⟨h1, fun h => absurd h h0, fun _ => ⟨fun _ => rfl, fun _ => rfl⟩⟩)
        exact ⟨result, final, hrun, by simpa using hl, hf, hall⟩
      · obtain ⟨result, final, hrun, hl, hf, hall⟩ :=
          ih (i + 1) (blocknodes.set vblockc ⟨some r.toNat, b, true⟩) (vblockc + 1)
            (by simp only [List.length_set]; omega) (by omega)
            (hstep _ ⟨h1, fun h => absurd h h0,
              fun _ => ⟨fun h => by simp at h, fun h => by simp at h⟩⟩)
        exact ⟨result, final, hrun, by simpa using hl, hf, hall⟩
    · obtain ⟨result, final, hrun, hl, hf, hall⟩ :=
        ih (i + 1) blocknodes vblockc (by omega) (by omega) hinv
      exact ⟨result, final, hrun, hl, hf, hall⟩

/-- Tree building returns, and every admitted slot has the shape the loop writes. -/
theorem built_tree_admitted (env : Env) (uninit : Nat → blockchain_node)
    (input : List block) :
    ∃ blocknodes vblockc, built_tree env uninit input = .done (blocknodes, vblockc) ∧
      vblockc ≤ blocknodes.length ∧
      ∀ (k : Nat) (node : blockchain_node), k < vblockc → blocknodes[k]? = some node →
        admitted_shape env node := by
  obtain ⟨result, final, hrun, -, hf, hall⟩ :=
    build_tree_from_admitted env (processed_blocks env input) 0
      ((List.range (processed_blocks env input).length).map uninit) 0 (by simp) (le_refl 0)
      (fun k node hk => by omega)
  exact ⟨result, final, hrun, hf, hall⟩

/-- The validated tree is the built tree after the ancestry-validation loop. -/
theorem validated_tree_of_built (env : Env) (uninit : Nat → blockchain_node)
    (input : List block) (blocknodes : List blockchain_node) (vblockc : Nat)
    (h : validated_tree env uninit input = .done (blocknodes, vblockc)) :
    ∃ built, built_tree env uninit input = .done (built, vblockc) ∧
      validate_nodes_from env vblockc 0 built = .done blocknodes := by
  unfold validated_tree at h
  simp only [] at h
  unfold built_tree processed_blocks
  cases hb : build_tree_from env (env.qsort compare_by_height input) 0
      (List.map uninit (List.range (env.qsort compare_by_height input).length)) 0 with
  | undefined => simp [hb] at h
  | loops => simp [hb] at h
  | done r =>
    obtain ⟨nodes, v⟩ := r
    simp only [hb] at h
    cases hv : validate_nodes_from env v 0 nodes with
    | undefined => simp [hv] at h
    | loops => simp [hv] at h
    | done result =>
      simp only [hv, Run.done.injEq, Prod.mk.injEq] at h
      obtain ⟨h1, h2⟩ := h
      subst h1
      subst h2
      exact ⟨nodes, rfl, hv⟩

/-- Whatever the input and the uninitialised memory: after tree building and ancestry
validation, an admitted node without parent that is valid is a height-0 block with the hash
`GENESIS_BLOCK_HASH`. -/
theorem valid_root_is_genesis (env : Env) (uninit : Nat → blockchain_node)
    (input : List block) (blocknodes : List blockchain_node) (vblockc : Nat)
    (h : validated_tree env uninit input = .done (blocknodes, vblockc))
    (k : Nat) (node : blockchain_node) (hk : k < vblockc)
    (hnode : blocknodes[k]? = some node) (hparent : node.parent = none)
    (hvalid : node.is_valid = true) :
    node.b.height = 0 ∧ env.block_hash node.b = GENESIS_BLOCK_HASH := by
  obtain ⟨built, hbuilt, hval⟩ := validated_tree_of_built env uninit input blocknodes vblockc h
  obtain ⟨built', v', hb', -, hall⟩ := built_tree_admitted env uninit input
  rw [hbuilt] at hb'
  simp only [Run.done.injEq, Prod.mk.injEq] at hb'
  obtain ⟨e1, e2⟩ := hb'
  subst e1
  subst e2
  have hflags := validate_nodes_from_flags env vblockc 0 built blocknodes hval
  obtain ⟨before, hbefore, hp, hb, hv⟩ := flags_lowered_getElem? built blocknodes hflags k node hnode
  obtain ⟨h1, h2, h3⟩ := hall k before hk hbefore
  have hheight : before.b.height = 0 := by
    by_contra hne
    have := (h3 hne).mp (by rw [← hp]; exact hparent)
    rw [hv hvalid] at this
    exact Bool.noConfusion this
  have hrules := (valid_block_before_tree_eq_one env before.b).mp h1
  have hh := hrules.1
  unfold hash_rule at hh
  rw [if_pos hheight] at hh
  rw [hb]
  exact ⟨hheight, hh⟩

/-- The key test of `balance_add` is equality of both coordinates. -/
theorem pubkey_cmp_iff (p q : ecdsa_pubkey) :
    (byte32_cmp p.x q.x = 0 ∧ byte32_cmp p.y q.y = 0) ↔ p = q := by
  rw [byte32_cmp_eq_zero, byte32_cmp_eq_zero]
  constructor
  · rintro ⟨h1, h2⟩
    cases p
    cases q
    simp only at h1 h2
    rw [h1, h2]
  · intro h
    rw [h]
    exact ⟨rfl, rfl⟩

/-- The loop of `balance_add` finds no entry exactly when the key is not in the list. -/
theorem balance_add_found_none (balances : List balance) (pubkey : ecdsa_pubkey)
    (amount : Int) :
    balance_add_found balances pubkey amount = none ↔ pubkey ∉ balance_keys balances := by
  induction balances with
  | nil => simp [balance_add_found, balance_keys]
  | cons p rest ih =>
    simp only [balance_add_found, pubkey_cmp_iff, balance_keys, List.map_cons, List.mem_cons,
      not_or]
    by_cases h : p.pubkey = pubkey
    · simp [h]
    · rw [if_neg h]
      simp only [Option.map_eq_none']
      rw [ih]
      simp only [balance_keys]
      constructor
      · intro h2
        exact ⟨fun e => h e.symm, h2⟩
      · intro h2
        exact h2.2

/-- An `int` addition whose exact result is in the range of `int` gives that result. -/
theorem int_wrap_of_is_int (x : Int) (h : is_int x) : int_wrap x = x := by
  unfold is_int at h
  unfold int_wrap
  omega

/-- An `int` addition leaves a value of type `int`. -/
theorem int_wrap_is_int (x : Int) : is_int (int_wrap x) := by
  unfold is_int int_wrap
  omega

/-- When the loop of `balance_add` finds the key, it keeps the keys, adds `amount` to the
balance of the key in `int` arithmetic and leaves the other balances alone. -/
theorem balance_add_found_some (balances : List balance) (pubkey : ecdsa_pubkey)
    (amount : Int) (updated : List balance)
    (h : balance_add_found balances pubkey amount = some updated) :
    balance_keys updated = balance_keys balances ∧
    balance_of updated pubkey = int_wrap (balance_of balances pubkey + amount) ∧
    ∀ other, other ≠ pubkey → balance_of updated other = balance_of balances other := by
  induction balances generalizing updated with
  | nil => simp [balance_add_found] at h
  | cons p rest ih =>
    simp only [balance_add_found, pubkey_cmp_iff] at h
    by_cases hp : p.pubkey = pubkey
    · rw [if_pos hp] at h
      simp only [Option.some.injEq] at h
      subst h
      refine ⟨by simp [balance_keys], by simp [balance_of, hp], ?_⟩
      intro other hne
      have : ¬ p.pubkey = other := fun e => hne (by rw [← e, hp])
      simp [balance_of, this]
    · rw [if_neg hp] at h
      cases hr : balance_add_found rest pubkey amount with
      | none => simp [hr] at h
      | some l =>
        simp only [hr, Option.map_some', Option.some.injEq] at h
        subst h
        obtain ⟨h1, h2, h3⟩ := ih l hr
        refine ⟨?_, ?_, ?_⟩
        · simp only [balance_keys, List.map_cons] at h1 ⊢
          rw [h1]
        · simp only [balance_of, if_neg hp]
          exact h2
        · intro other hne
          simp only [balance_of]
          split_ifs
          · rfl
          · exact h3 other hne

/-- A key that is not in the list has balance 0. -/
theorem balance_of_absent (balances : List balance) (pubkey : ecdsa_pubkey)
    (h : pubkey ∉ balance_keys balances) : balance_of balances pubkey = 0 := by
  induction balances with
  | nil => rfl
  | cons p rest ih =>
    simp only [balance_keys, List.map_cons, List.mem_cons, not_or] at h
    have hne : ¬ p.pubkey = pubkey := fun e => h.1 e.symm
    simp only [balance_of, if_neg hne]
    exact ih h.2

/-- The function `balance_add` adds `amount` to the balance of `pubkey` in `int` arithmetic
(the exact sum when that is an `int`), creates the entry when the key is new, keeps every
other balance, and keeps the keys free of duplicates. -/
theorem balance_add_entry (balances : List balance) (pubkey : ecdsa_pubkey) (amount : Int)
    (hnodup : (balance_keys balances).Nodup) (hamount : is_int amount) :
    balance_of (balance_add balances pubkey amount) pubkey =
      int_wrap (balance_of balances pubkey + amount) ∧
    (is_int (balance_of balances pubkey + amount) →
      balance_of (balance_add balances pubkey amount) pubkey =
        balance_of balances pubkey + amount) ∧
    (pubkey ∉ balance_keys balances →
      balance_of balances pubkey = 0 ∧
      balance_add balances pubkey amount = ⟨pubkey, amount⟩ :: balances) ∧
    (pubkey ∈ balance_keys balances →
      balance_keys (balance_add balances pubkey amount) = balance_keys balances) ∧
    (∀ other, other ≠ pubkey →
      balance_of (balance_add balances pubkey amount) other = balance_of balances other) ∧
    (balance_keys (balance_add balances pubkey amount)).Nodup := by
  unfold balance_add
  cases hf : balance_add_found balances pubkey amount with
  | none =>
    have habs := (balance_add_found_none balances pubkey amount).mp hf
    have h0 := balance_of_absent balances pubkey habs
    have hnew : balance_of (⟨pubkey, amount⟩ :: balances) pubkey = amount := by
      simp [balance_of]
    refine ⟨?_, fun _ => ?_, fun _ => ⟨h0, rfl⟩, fun hin => absurd hin habs, ?_, ?_⟩
    · rw [hnew, h0, Int.zero_add, int_wrap_of_is_int amount hamount]
    · rw [hnew, h0, Int.zero_add]
    · intro other hne
      have : ¬ pubkey = other := fun e => hne e.symm
      simp [balance_of, this]
    · simp only [balance_keys, List.map_cons]
      exact List.nodup_cons.mpr ⟨habs, hnodup⟩
  | some updated =>
    obtain ⟨h1, h2, h3⟩ := balance_add_found_some balances pubkey amount updated hf
    refine ⟨h2, fun hsum => ?_, ?_, fun _ => h1, h3, by simp only []; rw [h1]; exact hnodup⟩
    · rw [h2]
      exact int_wrap_of_is_int _ hsum
    intro habs
    have := (balance_add_found_none balances pubkey amount).mpr habs
    rw [hf] at this
    cases this

/-- The loop of `balance_add` leaves every balance a value of type `int`. -/
theorem balance_add_found_in_range (balances : List balance) (pubkey : ecdsa_pubkey)
    (amount : Int) (updated : List balance)
    (hrange : ∀ p ∈ balances, is_int p.balance)
    (h : balance_add_found balances pubkey amount = some updated) :
    ∀ p ∈ updated, is_int p.balance := by
  induction balances generalizing updated with
  | nil => simp [balance_add_found] at h
  | cons q rest ih =>
    simp only [balance_add_found] at h
    split_ifs at h with hq
    · simp only [Option.some.injEq] at h
      subst h
      intro p hp
      rcases List.mem_cons.mp hp with e | e
      · rw [e]
        exact int_wrap_is_int _
      · exact hrange p (List.mem_cons_of_mem _ e)
    · cases hr : balance_add_found rest pubkey amount with
      | none => simp [hr] at h
      | some l =>
        simp only [hr, Option.map_some', Option.some.injEq] at h
        subst h
        intro p hp
        rcases List.mem_cons.mp hp with e | e
        · rw [e]
          exact hrange q (List.mem_cons_self _ _)
        · exact ih l (fun p hp => hrange p (List.mem_cons_of_mem _ hp)) hr p e

/-- The function `balance_add` keeps every balance of the list a value of type `int`. -/
theorem balance_add_in_range (balances : List balance) (pubkey : ecdsa_pubkey)
    (amount : Int) (hrange : ∀ p ∈ balances, is_int p.balance) (hamount : is_int amount) :
    ∀ p ∈ balance_add balances pubkey amount, is_int p.balance := by
  unfold balance_add
  cases hf : balance_add_found balances pubkey amount with
  | none =>
    intro p hp
    rcases List.mem_cons.mp hp with e | e
    · rw [e]
      exact hamount
    · exact hrange p e
  | some updated =>
    exact balance_add_found_in_range balances pubkey amount updated hrange hf

/-- The comparator is at most 0 exactly when the first height is at most the second. -/
theorem compare_by_height_le (b1 b2 : block) :
    compare_by_height b1 b2 ≤ 0 ↔ b1.height ≤ b2.height := by
  unfold compare_by_height
  split_ifs with h1 h2
  · exact ⟨fun _ => Nat.le_of_lt h1, fun _ => by decide⟩
  · exact ⟨fun h => absurd h (by decide), fun h => absurd h2 (by omega)⟩
  · exact ⟨fun _ => by omega, fun _ => le_refl 0⟩

/-- The comparator is 0 exactly on equal heights. -/
theorem compare_by_height_eq_zero (b1 b2 : block) :
    compare_by_height b1 b2 = 0 ↔ b1.height = b2.height := by
  unfold compare_by_height
  split_ifs with h1 h2
  · simp only [Int.reduceNeg, neg_eq_zero, one_ne_zero, false_iff]
    omega
  · simp only [one_ne_zero, false_iff]
    omega
  · simp only [true_iff]
    omega

/-- Swapping the arguments of the comparator negates its result. -/
theorem compare_by_height_swap (b1 b2 : block) :
    compare_by_height b2 b1 = - compare_by_height b1 b2 := by
  unfold compare_by_height
  split_ifs <;> first | rfl | omega

/-- Insertion sort with `compare_by_height` gives a permutation in comparator order. -/
theorem insertionSort_sorts (l : List block) :
    (l.insertionSort (fun a b => compare_by_height a b ≤ 0)).Perm l ∧
    (l.insertionSort (fun a b => compare_by_height a b ≤ 0)).Pairwise
      (fun a b => compare_by_height a b ≤ 0) := by
  haveI : IsTotal block (fun a b => compare_by_height a b ≤ 0) :=
    ⟨fun a b => by
      simp only [compare_by_height_le]
      exact Nat.le_total a.height b.height⟩
  haveI : IsTrans block (fun a b => compare_by_height a b ≤ 0) :=
    ⟨fun a b c hab hbc => by
      simp only [compare_by_height_le] at hab hbc ⊢
      exact Nat.le_trans hab hbc⟩
  exact ⟨List.perm_insertionSort _ l, List.sorted_insertionSort _ l⟩

/-- The `qsort` of `toy_env` sorts with `compare_by_height`. -/
theorem toy_env_sorts : sorts_with toy_env compare_by_height :=
  fun l => insertionSort_sorts l

/-- The `qsort` of `unstable_env` sorts with `compare_by_height`. -/
theorem unstable_env_sorts : sorts_with unstable_env compare_by_height :=
  fun l => ⟨(insertionSort_sorts l.reverse).1.trans (List.reverse_perm l),
    (insertionSort_sorts l.reverse).2⟩

/-- With a `qsort` that sorts, the processed blocks are a permutation of the input in
non-decreasing height order. -/
theorem processed_blocks_ascending (env : Env) (input : List block)
    (hq : sorts_with env compare_by_height) :
    (processed_blocks env input).Perm input ∧
    (processed_blocks env input).Pairwise (fun a b => a.height ≤ b.height) := by
  refine ⟨(hq input).1, ?_⟩
  exact (hq input).2.imp (fun h => (compare_by_height_le _ _).mp h)

/-- In an arena in ascending height order an earlier admitted slot has at most the height
of a later one. -/
theorem heights_ascending_le (blocknodes : List blockchain_node) (vblockc : Nat)
    (h : heights_ascending blocknodes vblockc) (i j : Nat) (ni nj : blockchain_node)
    (hij : i ≤ j) (hj : j < vblockc) (hi : blocknodes[i]? = some ni)
    (hjj : blocknodes[j]? = some nj) : ni.b.height ≤ nj.b.height := by
  rcases Nat.eq_or_lt_of_le hij with he | hlt
  · subst he
    rw [hi] at hjj
    cases hjj
    exact le_refl _
  · unfold heights_ascending at h
    rw [List.pairwise_iff_getElem] at h
    have hjl : j < blocknodes.length := (List.getElem?_eq_some.mp hjj).1
    have hil : i < blocknodes.length := by omega
    have h1 : i < (blocknodes.take vblockc).length := by
      simp only [List.length_take]
      omega
    have h2 : j < (blocknodes.take vblockc).length := by
      simp only [List.length_take]
      omega
    have := h i j h1 h2 hlt
    simp only [List.getElem_take] at this
    have e1 : blocknodes[i] = ni := (List.getElem?_eq_some.mp hi).2
    have e2 : blocknodes[j] = nj := (List.getElem?_eq_some.mp hjj).2
    rw [e1, e2] at this
    exact this

/-- In an arena in ascending height order the leaf the selection loop stops at has the
greatest height among the slots with a fully valid path. -/
theorem select_leaf_highest_of_ascending (blocknodes : List blockchain_node) (vblockc : Nat)
    (hsorted : heights_ascending blocknodes vblockc) :
    (∀ (k : Nat) (leaf : blockchain_node),
      select_leaf blocknodes vblockc = .done (Int.ofNat k) → blocknodes[k]? = some leaf →
      ∀ (j : Nat) (node : blockchain_node), j < vblockc → fully_valid blocknodes j = true →
        blocknodes[j]? = some node → node.b.height ≤ leaf.b.height) ∧
    ((∀ j, j < vblockc → reaches_root blocknodes j = true) →
      (∃ j, j < vblockc ∧ fully_valid blocknodes j = true) →
      ∃ k, select_leaf blocknodes vblockc = .done (Int.ofNat k)) := by
  refine ⟨?_, ?_⟩
  · intro k leaf hsel hleaf j node hj hfv hnode
    have hk := (select_leaf_fully_valid blocknodes vblockc k hsel).1
    have hle : j ≤ k := by
      by_contra hgt
      have := select_leaf_skipped blocknodes vblockc k hsel j (by omega) hj
      rw [hfv] at this
      exact Bool.noConfusion this
    exact heights_ascending_le blocknodes vblockc hsorted j k node leaf hle hk hnode hleaf
  · intro hroot hsome
    obtain ⟨k, hk, -⟩ := select_leaf_greatest blocknodes vblockc hroot hsome
    exact ⟨k, hk⟩

/-- Writing the next slot appends its block to the admitted blocks. -/
theorem admitted_blocks_set (blocknodes : List blockchain_node) (vblockc : Nat)
    (node : blockchain_node) (h : vblockc < blocknodes.length) :
    admitted_blocks (blocknodes.set vblockc node) (vblockc + 1) =
      admitted_blocks blocknodes vblockc ++ [node.b] := by
  unfold admitted_blocks
  have htake : (blocknodes.set vblockc node).take vblockc = blocknodes.take vblockc := by
    apply List.ext_getElem?
    intro q
    rw [List.getElem?_take, List.getElem?_take]
    split
    · rw [List.getElem?_set_ne (by omega)]
    · rfl
  rw [List.take_succ, List.getElem?_set_self h, htake]
  simp

/-- The tree-building loop admits exactly the blocks that pass `valid_block_before_tree`,
in processing order. -/
theorem build_tree_from_blocks (env : Env) :
    ∀ (rest : List block) (i : Nat) (blocknodes : List blockchain_node) (vblockc : Nat),
      i + rest.length = blocknodes.length → vblockc ≤ i →
      ∀ result final, build_tree_from env rest i blocknodes vblockc = .done (result, final) →
        admitted_blocks result final =
          admitted_blocks blocknodes vblockc ++
            rest.filter (fun b => decide (valid_block_before_tree env b ≠ 0)) := by
  intro rest
  induction rest with
  | nil =>
    intro i blocknodes vblockc _ _ result final h
    simp only [build_tree_from, Run.done.injEq, Prod.mk.injEq] at h
    obtain ⟨h1, h2⟩ := h
    subst h1
    subst h2
    simp
  | cons b rest ih =>
    intro i blocknodes vblockc hlen hv result final h
    simp only [List.length_cons] at hlen
    have hin : vblockc < blocknodes.length := by omega
    simp only [build_tree_from] at h
    split_ifs at h with hvalid h0
    · rw [ih (i + 1) _ (vblockc + 1) (by simp only [List.length_set]; omega) (by omega)
        result final h, admitted_blocks_set _ _ _ hin]
      simp [List.filter_cons, hvalid]
    · cases hr : parentnode_of_block env b blocknodes i with
      | undefined => simp [hr] at h
      | loops => simp [hr] at h
      | done r =>
        simp only [hr] at h
        split_ifs at h with hneg
        · rw [ih (i + 1) _ (vblockc + 1) (by simp only [List.length_set]; omega) (by omega)
            result final h, admitted_blocks_set _ _ _ hin]
          simp [List.filter_cons, hvalid]
        · rw [ih (i + 1) _ (vblockc + 1) (by simp only [List.length_set]; omega) (by omega)
            result final h, admitted_blocks_set _ _ _ hin]
          simp [List.filter_cons, hvalid]
    · rw [ih (i + 1) blocknodes vblockc (by omega) (by omega) result final h]
      have : valid_block_before_tree env b = 0 := not_not.mp hvalid
      simp [List.filter_cons, this]

/-- The admitted blocks are the processed blocks that pass `valid_block_before_tree`, in
processing order. -/
theorem built_tree_blocks (env : Env) (uninit : Nat → blockchain_node)
    (input : List block) (blocknodes : List blockchain_node) (vblockc : Nat)
    (h : built_tree env uninit input = .done (blocknodes, vblockc)) :
    admitted_blocks blocknodes vblockc =
      (processed_blocks env input).filter
        (fun b => decide (valid_block_before_tree env b ≠ 0)) := by
  unfold built_tree at h
  have := build_tree_from_blocks env (processed_blocks env input) 0 _ 0 (by simp)
    (le_refl 0) blocknodes vblockc h
  simpa [admitted_blocks] using this

/-- Clearing validity flags keeps the admitted blocks. -/
theorem admitted_blocks_of_flags (before after : List blockchain_node) (vblockc : Nat)
    (h : flags_lowered before after) :
    admitted_blocks after vblockc = admitted_blocks before vblockc := by
  unfold admitted_blocks
  apply List.ext_getElem?
  intro q
  simp only [List.getElem?_map, List.getElem?_take]
  split
  · cases hb : before[q]? with
    | none =>
      have : after[q]? = none := by
        rw [List.getElem?_eq_none_iff] at hb ⊢
        rw [h.1]
        exact hb
      rw [this]
    | some node =>
      obtain ⟨node', ha, -, hbb, -⟩ := h.2 q node hb
      rw [ha]
      simp [hbb]
  · rfl

/-- A selected chain comes from a validated tree and a leaf of the selection loop, and every
node on it is valid. -/
theorem selected_chain_run (env : Env) (uninit : Nat → blockchain_node)
    (input : List block) (chain : List blockchain_node)
    (h : selected_chain env uninit input = .done chain) :
    ∃ blocknodes vblockc leaf,
      validated_tree env uninit input = .done (blocknodes, vblockc) ∧
      select_leaf blocknodes vblockc = .done (Int.ofNat leaf) ∧ leaf < vblockc ∧
      parent_path blocknodes leaf = .done chain ∧
      ∀ node ∈ chain, node.is_valid = true := by
  unfold selected_chain at h
  cases ht : validated_tree env uninit input with
  | undefined => simp [ht] at h
  | loops => simp [ht] at h
  | done r =>
    obtain ⟨blocknodes, vblockc⟩ := r
    simp only [ht] at h
    cases hsel : select_leaf blocknodes vblockc with
    | undefined => simp [hsel] at h
    | loops => simp [hsel] at h
    | done leaf_idx =>
      simp only [hsel] at h
      split_ifs at h with hneg
      obtain ⟨leaf, hleaf⟩ := Int.eq_ofNat_of_zero_le (not_lt.mp hneg)
      subst hleaf
      simp only [Int.toNat_ofNat] at h
      have hfv := select_leaf_fully_valid blocknodes vblockc leaf hsel
      refine ⟨blocknodes, vblockc, leaf, rfl, hsel, hfv.1, h, ?_⟩
      have h2 := hfv.2
      unfold fully_valid at h2
      rw [h] at h2
      simpa [List.all_eq_true] using h2

/-- Whatever the input and the uninitialised memory: in the validated tree every admitted
node holds a block that passes `valid_block_before_tree`, and an admitted node of height
above 0 without parent is invalid. -/
theorem validated_tree_admitted (env : Env) (uninit : Nat → blockchain_node)
    (input : List block) (blocknodes : List blockchain_node) (vblockc : Nat)
    (h : validated_tree env uninit input = .done (blocknodes, vblockc))
    (k : Nat) (node : blockchain_node) (hk : k < vblockc)
    (hnode : blocknodes[k]? = some node) :
    valid_block_before_tree env node.b = 1 ∧
    (node.b.height ≠ 0 → node.parent = none → node.is_valid = false) := by
  obtain ⟨built, hbuilt, hval⟩ := validated_tree_of_built env uninit input blocknodes vblockc h
  obtain ⟨built', v', hb', -, hall⟩ := built_tree_admitted env uninit input
  rw [hbuilt] at hb'
  simp only [Run.done.injEq, Prod.mk.injEq] at hb'
  obtain ⟨e1, e2⟩ := hb'
  subst e1
  subst e2
  have hflags := validate_nodes_from_flags env vblockc 0 built blocknodes hval
  obtain ⟨before, hbefore, hp, hb, hv⟩ :=
    flags_lowered_getElem? built blocknodes hflags k node hnode
  obtain ⟨h1, -, h3⟩ := hall k before hk hbefore
  refine ⟨by rw [hb]; exact h1, ?_⟩
  intro hne hpar
  have hbf := (h3 (by rw [← hb]; exact hne)).mp (by rw [← hp]; exact hpar)
  cases hvv : node.is_valid with
  | false => rfl
  | true =>
    rw [hv hvv] at hbf
    exact Bool.noConfusion hbf

/-- Whatever the input and the uninitialised memory: an admitted node of height above 0
without parent is not on the selected chain, so no selected chain passes through it. -/
theorem orphan_not_on_selected_chain (env : Env) (uninit : Nat → blockchain_node)
    (input : List block) (blocknodes : List blockchain_node) (vblockc : Nat)
    (chain : List blockchain_node)
    (htree : validated_tree env uninit input = .done (blocknodes, vblockc))
    (hchain : selected_chain env uninit input = .done chain)
    (node : blockchain_node) (hon : node ∈ chain)
    (hadm : ∃ k, k < vblockc ∧ blocknodes[k]? = some node)
    (hheight : node.b.height ≠ 0) : node.parent ≠ none := by
  obtain ⟨bn, v, leaf, ht, -, -, -, hvalid⟩ := selected_chain_run env uninit input chain hchain
  obtain ⟨k, hk, hnode⟩ := hadm
  intro hpar
  have := (validated_tree_admitted env uninit input blocknodes vblockc htree k node hk hnode).2
    hheight hpar
  rw [hvalid node hon] at this
  exact Bool.noConfusion this

/-- The last node of a walk that reaches NULL has no parent. -/
theorem chain_from_last (blocknodes : List blockchain_node) (fuel : Nat) :
    ∀ (p : Option Nat) (path : List blockchain_node),
      chain_from blocknodes fuel p = .done path →
      ∀ root, path.getLast? = some root → root.parent = none := by
  induction fuel with
  | zero =>
    intro p path h root hr
    cases p with
    | none =>
      simp only [chain_from, Run.done.injEq] at h
      subst h
      simp at hr
    | some n => simp [chain_from] at h
  | succ fuel ih =>
    intro p path h root hr
    cases p with
    | none =>
      simp only [chain_from, Run.done.injEq] at h
      subst h
      simp at hr
    | some n =>
      simp only [chain_from] at h
      cases hget : blocknodes[n]? with
      | none => simp [hget] at h
      | some node =>
        simp only [hget] at h
        cases hrest : chain_from blocknodes fuel node.parent with
        | undefined => simp [hrest] at h
        | loops => simp [hrest] at h
        | done rest =>
          simp only [hrest, Run.done.injEq] at h
          subst h
          cases rest with
          | nil =>
            simp only [List.getLast?_singleton, Option.some.injEq] at hr
            subst hr
            cases hp : node.parent with
            | none => rfl
            | some q =>
              rw [hp] at hrest
              cases fuel with
              | zero => simp [chain_from] at hrest
              | succ f =>
                simp only [chain_from] at hrest
                cases hq : blocknodes[q]? with
                | none => simp [hq] at hrest
                | some nq =>
                  simp only [hq] at hrest
                  cases hrr : chain_from blocknodes f nq.parent <;> simp [hrr] at hrest
          | cons x rest' =>
            rw [List.getLast?_cons_cons] at hr
            exact ih node.parent (x :: rest') hrest root hr

/-- In a well-linked arena the parent path of an admitted slot runs through admitted slots
only. -/
theorem well_linked_path_admitted (env : Env) (blocknodes : List blockchain_node)
    (vblockc : Nat) (h : well_linked env blocknodes vblockc) :
    ∀ (fuel k : Nat) (path : List blockchain_node), k < vblockc →
      chain_from blocknodes fuel (some k) = .done path →
      ∀ node ∈ path, ∃ k', k' < vblockc ∧ blocknodes[k']? = some node := by
  intro fuel
  induction fuel with
  | zero =>
    intro k path _ hp
    simp [chain_from] at hp
  | succ fuel ih =>
    intro k path hk hp node hmem
    simp only [chain_from] at hp
    cases hget : blocknodes[k]? with
    | none => simp [hget] at hp
    | some nk =>
      simp only [hget] at hp
      cases hrest : chain_from blocknodes fuel nk.parent with
      | undefined => simp [hrest] at hp
      | loops => simp [hrest] at hp
      | done rest =>
        simp only [hrest, Run.done.injEq] at hp
        subst hp
        rcases List.mem_cons.mp hmem with he | hin
        · subst he
          exact ⟨k, hk, hget⟩
        · cases hpar : nk.parent with
          | none =>
            rw [hpar] at hrest
            have : rest = [] := by
              cases fuel <;> simp only [chain_from, Run.done.injEq] at hrest <;>
                exact hrest.symm
            rw [this] at hin
            simp at hin
          | some q =>
            obtain ⟨hqk, -⟩ := h k nk hk hget q hpar
            rw [hpar] at hrest
            exact ih q rest (by omega) hrest node hin

/-- When no uninitialised slot matches a parent hash, the root of the selected chain is a
height-0 block with the hash `GENESIS_BLOCK_HASH`. -/
theorem selected_root_is_genesis (env : Env) (uninit : Nat → blockchain_node)
    (input : List block)
    (hclean : no_stale_match env uninit (env.qsort compare_by_height input))
    (chain : List blockchain_node) (hchain : selected_chain env uninit input = .done chain)
    (root : blockchain_node) (hroot : chain.getLast? = some root) :
    root.b.height = 0 ∧ env.block_hash root.b = GENESIS_BLOCK_HASH := by
  obtain ⟨blocknodes, vblockc, leaf, htree, -, hleaf, hpath, hvalid⟩ :=
    selected_chain_run env uninit input chain hchain
  obtain ⟨bn', v', htree', -, hwl⟩ := validated_tree_linked env uninit input hclean
  rw [htree] at htree'
  simp only [Run.done.injEq, Prod.mk.injEq] at htree'
  obtain ⟨e1, e2⟩ := htree'
  subst e1
  subst e2
  have hmem : root ∈ chain := List.mem_of_getLast?_eq_some hroot
  obtain ⟨k, hk, hnode⟩ := well_linked_path_admitted env blocknodes vblockc hwl
    blocknodes.length leaf chain hleaf hpath root hmem
  have hpar := chain_from_last blocknodes blocknodes.length (some leaf) chain hpath root hroot
  exact valid_root_is_genesis env uninit input blocknodes vblockc htree k root hk hnode hpar
    (hvalid root hmem)

/-- When no uninitialised slot matches a parent hash, an admitted block of height above 0
whose `prev_block_hash` is the hash of no earlier admitted node has no parent and is marked
invalid. -/
theorem unmatched_block_is_orphan (env : Env) (uninit : Nat → blockchain_node)
    (input : List block)
    (hclean : no_stale_match env uninit (env.qsort compare_by_height input))
    (blocknodes : List blockchain_node) (vblockc : Nat)
    (hbuilt : built_tree env uninit input = .done (blocknodes, vblockc))
    (k : Nat) (node : blockchain_node) (hk : k < vblockc)
    (hnode : blocknodes[k]? = some node) (hheight : node.b.height ≠ 0)
    (hnone : ∀ p, p < k → ¬ hash_matches env node.b blocknodes p) :
    node.parent = none ∧ node.is_valid = false := by
  obtain ⟨result, final, hrun, -, -, hlinked⟩ :=
    build_tree_from_linked env uninit _ hclean (env.qsort compare_by_height input) 0
      (List.map uninit (List.range (env.qsort compare_by_height input).length)) 0
      (fun b hb => hb) (by simp) (le_refl 0)
      ⟨fun j _ hj => by
        simp only [List.length_map, List.length_range] at hj
        simp [List.getElem?_map, List.getElem?_range hj], fun k node hk => by omega⟩
  obtain ⟨bn', v', hb', -, hall⟩ := built_tree_admitted env uninit input
  unfold built_tree processed_blocks at hbuilt hb'
  rw [hbuilt] at hrun hb'
  simp only [Run.done.injEq, Prod.mk.injEq] at hrun hb'
  obtain ⟨e1, e2⟩ := hrun
  obtain ⟨e3, e4⟩ := hb'
  subst e1
  subst e2
  subst e3
  subst e4
  have hpar : node.parent = none := by
    cases hp : node.parent with
    | none => rfl
    | some p =>
      obtain ⟨hlt, parent, hparent, hlink⟩ := hlinked.2 k node hk hnode p hp
      exact absurd ⟨parent, hparent, hlink.symm⟩ (hnone p hlt)
  exact ⟨hpar, ((hall k node hk hnode).2.2 hheight).mp hpar⟩

/-- With a `qsort` that sorts, the admitted nodes of the validated tree stand in
non-decreasing height order. -/
theorem validated_tree_ascending (env : Env) (uninit : Nat → blockchain_node)
    (input : List block) (hq : sorts_with env compare_by_height)
    (blocknodes : List blockchain_node) (vblockc : Nat)
    (h : validated_tree env uninit input = .done (blocknodes, vblockc)) :
    heights_ascending blocknodes vblockc := by
  obtain ⟨built, hbuilt, hval⟩ := validated_tree_of_built env uninit input blocknodes vblockc h
  have hflags := validate_nodes_from_flags env vblockc 0 built blocknodes hval
  have hblocks : admitted_blocks blocknodes vblockc =
      (processed_blocks env input).filter
        (fun b => decide (valid_block_before_tree env b ≠ 0)) := by
    rw [admitted_blocks_of_flags built blocknodes vblockc hflags]
    exact built_tree_blocks env uninit input built vblockc hbuilt
  have hsorted := (processed_blocks_ascending env input hq).2
  have hfilt := hsorted.filter (fun b => decide (valid_block_before_tree env b ≠ 0))
  rw [← hblocks] at hfilt
  unfold admitted_blocks at hfilt
  unfold heights_ascending
  exact (List.pairwise_map (f := fun (node : blockchain_node) => node.b)
    (R := fun (a b : block) => a.height ≤ b.height)).mp hfilt

/-! ## Claims -/

/-- Claim C1, evaluated at a failing input. On `stale_input`, with a block of hash 2313 left
in the uninitialised slot 2, the parent search for the height-3 block (bound `i = 3` while
only one node is admitted) returns slot 2; the height-4 block is stored there afterwards.
The selected chain is then the height-5, height-3, height-4 and genesis blocks: every node
is valid, but the height-3 block's `prev_block_hash` is not the hash of its parent. -/
theorem stale_slot_breaks_hash_linkage :
    validated_tree toy_env stale_memory stale_input = .done (stale_tree, 4) ∧
    fully_valid stale_tree 3 = true ∧
    selected_chain toy_env stale_memory stale_input = .done stale_chain ∧
    (∀ node ∈ stale_chain, node.is_valid = true) ∧
    hash_linked toy_env stale_chain = false ∧
    (plain_block 3 2313 3).prev_block_hash ≠
      toy_env.block_hash (plain_block 4 GENESIS_BLOCK_HASH 4) := by
  decide

/-- Claim C2, evaluated at a failing input. On `unchecked_input` the parent search (bound
`i = 2` while no node is admitted) returns the uninitialised slot 1, which is never written
or validated; the selected chain runs through slots 1 and 2, whose blocks both spend the
transaction 65793, and every node on it counts as valid. -/
theorem unchecked_slots_double_spend :
    validated_tree toy_env unchecked_memory unchecked_input = .done (unchecked_chain, 1) ∧
    selected_chain toy_env unchecked_memory unchecked_input = .done unchecked_chain ∧
    (∀ node ∈ unchecked_chain, node.is_valid = true) ∧
    ¬ no_double_spend unchecked_chain := by
  decide

/-- Claim C3. The function `valid_node_after_tree` returns 1 exactly when either
`normal_tx.prev_transaction_hash` is all-zero, or the strict ancestors `anc` of the node
(parent, grandparent, and so on up to a root) satisfy all three: (i) one of them has a
`reward_tx` or `normal_tx` whose transaction hash is `normal_tx.prev_transaction_hash`;
(ii) `transaction_verify` of the node's `normal_tx` against the matching transaction of the
nearest such ancestor, `reward_tx` tried first, returns 1; (iii) no strict ancestor has the
same `normal_tx.prev_transaction_hash`. -/
theorem valid_node_after_tree_returns_one_iff (env : Env)
    (blocknodes : List blockchain_node) (node : blockchain_node) :
    valid_node_after_tree env blocknodes node = .done 1 ↔
      byte32_is_zero node.b.normal_tx.prev_transaction_hash = true ∨
      ∃ anc, ancestors blocknodes node = .done anc ∧
        (∃ a ∈ anc,
          env.transaction_hash a.b.reward_tx = node.b.normal_tx.prev_transaction_hash ∨
          env.transaction_hash a.b.normal_tx = node.b.normal_tx.prev_transaction_hash) ∧
        (∃ t, matching_transaction env node.b.normal_tx.prev_transaction_hash anc = some t ∧
          env.transaction_verify node.b.normal_tx t = 1) ∧
        (∀ a ∈ anc,
          a.b.normal_tx.prev_transaction_hash ≠ node.b.normal_tx.prev_transaction_hash) :=
  valid_node_after_tree_one_iff env blocknodes node

/-- Claim C4. If `valid_block_before_tree` returns 1 then all structural rules hold: a
height-0 block has the hash `GENESIS_BLOCK_HASH`, a block of height above 0 has a hash below
the target, `reward_tx.height` equals the block height, and
`reward_tx.prev_transaction_hash`, `reward_tx.src_signature.r` and
`reward_tx.src_signature.s` are all-zero. -/
theorem valid_block_before_tree_rules (env : Env) (b : block)
    (h : valid_block_before_tree env b = 1) :
    (b.height = 0 → env.block_hash b = GENESIS_BLOCK_HASH) ∧
    (0 < b.height → env.hash_output_is_below_target (env.block_hash b) = true) ∧
    b.reward_tx.height = b.height ∧
    byte32_is_zero b.reward_tx.prev_transaction_hash = true ∧
    byte32_is_zero b.reward_tx.src_signature.r = true ∧
    byte32_is_zero b.reward_tx.src_signature.s = true := by
  obtain ⟨hh, hr, -, hp, hsr, hss⟩ := (valid_block_before_tree_eq_one env b).mp h
  unfold hash_rule at hh
  refine ⟨?_, ?_, hr, hp, hsr, hss⟩
  · intro h0
    rwa [if_pos h0] at hh
  · intro hpos
    rwa [if_neg (Nat.pos_iff_ne_zero.mp hpos)] at hh

/-- Witness for claim C4: the genesis block of the instance passes and obeys the rules. -/
theorem valid_block_before_tree_rules_witness :
    valid_block_before_tree toy_env genesis_block = 1 ∧
    ((genesis_block.height = 0 → toy_env.block_hash genesis_block = GENESIS_BLOCK_HASH) ∧
    (0 < genesis_block.height →
      toy_env.hash_output_is_below_target (toy_env.block_hash genesis_block) = true) ∧
    genesis_block.reward_tx.height = genesis_block.height ∧
    byte32_is_zero genesis_block.reward_tx.prev_transaction_hash = true ∧
    byte32_is_zero genesis_block.reward_tx.src_signature.r = true ∧
    byte32_is_zero genesis_block.reward_tx.src_signature.s = true) :=
  ⟨by decide, valid_block_before_tree_rules toy_env genesis_block (by decide)⟩

/-- Counterexample to claim C5 as stated: a height-0 block with the genesis hash, no normal
transaction, a reward transaction of height 0 with all-zero input and signature, but
`normal_tx.height = 1`, is rejected. -/
theorem normal_height_checked_without_normal_tx :
    byte32_is_zero odd_genesis.normal_tx.prev_transaction_hash = true ∧
    hash_rule toy_env odd_genesis ∧
    odd_genesis.reward_tx.height = odd_genesis.height ∧
    byte32_is_zero odd_genesis.reward_tx.prev_transaction_hash = true ∧
    byte32_is_zero odd_genesis.reward_tx.src_signature.r = true ∧
    byte32_is_zero odd_genesis.reward_tx.src_signature.s = true ∧
    valid_block_before_tree toy_env odd_genesis = 0 := by
  decide

/-- Claim C5, amended. The normal-transaction height rule of `valid_block_before_tree`
applies whether or not a normal transaction is present: a block that satisfies the hash
rule, has `reward_tx.height == height` and an all-zero reward prev-hash and signature is
accepted (result 1) exactly when `normal_tx.height == height`, and rejected (result 0)
otherwise, whatever `normal_tx.prev_transaction_hash` is. -/
theorem normal_height_rule_unconditional (env : Env) (b : block)
    (hh : hash_rule env b) (hr : b.reward_tx.height = b.height)
    (hp : byte32_is_zero b.reward_tx.prev_transaction_hash = true)
    (hsr : byte32_is_zero b.reward_tx.src_signature.r = true)
    (hss : byte32_is_zero b.reward_tx.src_signature.s = true) :
    (valid_block_before_tree env b = 1 ↔ b.normal_tx.height = b.height) ∧
    (valid_block_before_tree env b = 0 ↔ b.normal_tx.height ≠ b.height) := by
  have h1 : valid_block_before_tree env b = 1 ↔ b.normal_tx.height = b.height := by
    rw [valid_block_before_tree_eq_one]
    exact ⟨fun h => h.2.2.1, fun h => ⟨hh, hr, h, hp, hsr, hss⟩⟩
  refine ⟨h1, ?_, ?_⟩
  · intro h0 hn
    have h := h1.mpr hn
    rw [h0] at h
    exact absurd h (by decide)
  · intro hn
    rcases valid_block_before_tree_zero_or_one env b with h | h
    · exact h
    · exact absurd (h1.mp h) hn

/-- Witness for the amended claim C5, at the height-0 block whose `normal_tx.height` is 1. -/
theorem normal_height_rule_unconditional_witness :
    (valid_block_before_tree toy_env odd_genesis = 1 ↔
      odd_genesis.normal_tx.height = odd_genesis.height) ∧
    (valid_block_before_tree toy_env odd_genesis = 0 ↔
      odd_genesis.normal_tx.height ≠ odd_genesis.height) :=
  normal_height_rule_unconditional toy_env odd_genesis (by decide) (by decide) (by decide)
    (by decide) (by decide)

/-- Claim C6. For every array of nodes, the leaf chosen by the selection loop of `main` is
the node with the greatest index whose whole parent path (the node itself up to and
including its root) has `is_valid = 1`: its own path is fully valid and no node with a
greater index has a fully valid path.  The loop does choose a leaf when the parent
references of every admitted node lead to a root and some node has a fully valid path. -/
theorem select_leaf_greatest_fully_valid (blocknodes : List blockchain_node)
    (vblockc : Nat) :
    (∀ k, select_leaf blocknodes vblockc = .done (Int.ofNat k) →
      k < vblockc ∧ fully_valid blocknodes k = true ∧
      ∀ j, k < j → j < vblockc → fully_valid blocknodes j = false) ∧
    ((∀ j, j < vblockc → reaches_root blocknodes j = true) →
      (∃ j, j < vblockc ∧ fully_valid blocknodes j = true) →
      ∃ k, select_leaf blocknodes vblockc = .done (Int.ofNat k)) := by
  refine ⟨?_, ?_⟩
  · intro k h
    exact ⟨(select_leaf_fully_valid blocknodes vblockc k h).1,
      (select_leaf_fully_valid blocknodes vblockc k h).2,
      select_leaf_skipped blocknodes vblockc k h⟩
  · intro hroot hsome
    obtain ⟨k, hk, -⟩ := select_leaf_greatest blocknodes vblockc hroot hsome
    exact ⟨k, hk⟩

/-- Witness for claim C6: among four nodes where the last one has an invalid parent, the loop
picks index 2, which has a fully valid path while index 3 has none. -/
theorem select_leaf_greatest_fully_valid_witness :
    select_leaf sample_nodes 4 = .done (Int.ofNat 2) ∧
    (2 < 4 ∧ fully_valid sample_nodes 2 = true ∧
      ∀ j, 2 < j → j < 4 → fully_valid sample_nodes j = false) :=
  ⟨by decide, (select_leaf_greatest_fully_valid sample_nodes 4).1 2 (by decide)⟩

/-- Claim C7, evaluated at a failing input. On `fork_input` the selected chain is the
height-3 block and the genesis block (2 nodes), although slot 2 has a fully valid parent path
of 3 nodes. -/
theorem fork_selects_shorter_path :
    validated_tree toy_env zeroed fork_input = .done (fork_tree, 4) ∧
    selected_chain toy_env zeroed fork_input =
      .done [⟨some 0, plain_block 3 GENESIS_BLOCK_HASH 4, true⟩, ⟨none, genesis_block, true⟩] ∧
    parent_path fork_tree 2 =
      .done [⟨some 1, plain_block 2 258 3, true⟩,
        ⟨some 0, plain_block 1 GENESIS_BLOCK_HASH 2, true⟩, ⟨none, genesis_block, true⟩] ∧
    fully_valid fork_tree 2 = true := by
  decide

/-- Claim C8, evaluated at failing inputs. With no input block, and with a single orphan
block, the selection loop ends with `leaf_idx = -1` and `main` goes on to read
`blocknodes[-1]`: the run is undefined, it is not an error exit. -/
theorem no_valid_path_is_undefined :
    validated_tree toy_env zeroed [] = .done ([], 0) ∧
    select_leaf [] 0 = .done (-1) ∧
    main toy_env zeroed [] = .undefined ∧
    validated_tree toy_env zeroed [plain_block 1 GENESIS_BLOCK_HASH 2] =
      .done ([⟨none, plain_block 1 GENESIS_BLOCK_HASH 2, false⟩], 1) ∧
    select_leaf [⟨none, plain_block 1 GENESIS_BLOCK_HASH 2, false⟩] 1 = .done (-1) ∧
    main toy_env zeroed [plain_block 1 GENESIS_BLOCK_HASH 2] = .undefined := by
  decide

/-- Claim C9, evaluated at a failing input. On a single genesis block rewarding the key 1
`main` prints the block and no balance line, where one call of `balance_add` would give the
ledger with the single entry (key 1, balance 1). -/
theorem genesis_only_prints_no_balance :
    main toy_env zeroed [genesis_block] = .done ⟨[some genesis_block], [], 0⟩ ∧
    balance_add [] genesis_block.reward_tx.dest_pubkey 1 = [⟨⟨1, 1⟩, 1⟩] := by
  decide

/-- Claim C10, evaluated at failing inputs. On `gap_input` the selected leaf has height 2 and
a parent path of 2 nodes: slot 0 of `longest_chain` is never written and the genesis node
sits at index 1. On `tie_input` the leaf has height 1 and a parent path of 3 nodes: the
third write goes to `longest_chain[-1]`. -/
theorem gap_leaves_slot_unwritten :
    selected_chain toy_env zeroed gap_input =
      .done [⟨some 0, plain_block 2 GENESIS_BLOCK_HASH 2, true⟩, ⟨none, genesis_block, true⟩] ∧
    longest_chain toy_env zeroed gap_input =
      .done [none, some ⟨none, genesis_block, true⟩,
        some ⟨some 0, plain_block 2 GENESIS_BLOCK_HASH 2, true⟩] ∧
    selected_chain toy_env zeroed tie_input =
      .done [⟨some 1, plain_block 1 258 3, true⟩,
        ⟨some 0, plain_block 1 GENESIS_BLOCK_HASH 2, true⟩, ⟨none, genesis_block, true⟩] ∧
    longest_chain toy_env zeroed tie_input = .undefined := by
  decide

/-- Claim C11, evaluated at a failing input. On `loop_input` the parent search for the
height-2 block runs with the bound `i = 1` while no node is admitted: it reads slot 0, which
was never written, and its result depends on what `malloc` left there (0 in `loop_memory`,
-1 in zeroed memory). In `loop_memory` the block is stored in slot 0 with slot 0 as its
parent: the parent index is not smaller than its own, the walk along the parent references
meets no root, and `main` does not leave the selection loop. -/
theorem parent_search_reads_unadmitted_slot :
    parentnode_of_block toy_env (plain_block 2 2313 2) ((List.range 2).map loop_memory) 1 =
      .done 0 ∧
    parentnode_of_block toy_env (plain_block 2 2313 2) ((List.range 2).map zeroed) 1 =
      .done (-1) ∧
    built_tree toy_env loop_memory loop_input = .done (loop_tree, 1) ∧
    validated_tree toy_env loop_memory loop_input = .done (loop_tree, 1) ∧
    reaches_root loop_tree 0 = false ∧
    main toy_env loop_memory loop_input = .loops := by
  decide

/-- Claim C12. For every block `b`, node array and bound `maximum` inside the array,
`parentnode_of_block` returns: its result is the index `j` exactly when `j` is the smallest
index below `maximum` whose block hash is `b.prev_block_hash`, and -1 exactly when no index
below `maximum` has that hash. Among duplicate blocks the first one is the parent. -/
theorem parentnode_of_block_first_match (env : Env) (b : block)
    (blocknodes : List blockchain_node) (maximum : Nat)
    (hmax : maximum ≤ blocknodes.length) :
    (∃ r, parentnode_of_block env b blocknodes maximum = .done r) ∧
    (∀ j : Nat, parentnode_of_block env b blocknodes maximum = .done (Int.ofNat j) ↔
      j < maximum ∧ hash_matches env b blocknodes j ∧
      ∀ j', j' < j → ¬ hash_matches env b blocknodes j') ∧
    (parentnode_of_block env b blocknodes maximum = .done (-1) ↔
      ∀ j, j < maximum → ¬ hash_matches env b blocknodes j) :=
  parentnode_of_block_smallest env b blocknodes maximum hmax

/-- Witness for claim C12: with the same block in slots 1 and 2, the search returns 1. -/
theorem parentnode_of_block_first_match_witness :
    3 ≤ duplicate_nodes.length ∧
    hash_matches toy_env (plain_block 2 258 5) duplicate_nodes 1 ∧
    hash_matches toy_env (plain_block 2 258 5) duplicate_nodes 2 ∧
    parentnode_of_block toy_env (plain_block 2 258 5) duplicate_nodes 3 = .done (Int.ofNat 1) ∧
    (1 < 3 ∧ hash_matches toy_env (plain_block 2 258 5) duplicate_nodes 1 ∧
      ∀ j', j' < 1 → ¬ hash_matches toy_env (plain_block 2 258 5) duplicate_nodes j') :=
  ⟨by decide, by decide, by decide, by decide,
    ((parentnode_of_block_first_match toy_env (plain_block 2 258 5) duplicate_nodes 3
      (by decide)).2.1 1).mp (by decide)⟩

/-- Claim C13, evaluated at a failing input. On `orphan_input` the height-3 block is
structurally valid and names a `prev_block_hash` that no input block has, and no node is
admitted before it; the parent search (bound `i = 2`) finds that hash in the never-written
slot 1, so the block is admitted with a parent and `is_valid = 1`, and it is the selected
leaf. -/
theorem unmatched_block_gets_stale_parent :
    (∀ b ∈ orphan_input, toy_env.block_hash b ≠ (plain_block 3 2313 3).prev_block_hash) ∧
    valid_block_before_tree toy_env (plain_block 3 2313 3) = 1 ∧
    built_tree toy_env orphan_memory orphan_input = .done (orphan_tree, 1) ∧
    validated_tree toy_env orphan_memory orphan_input = .done (orphan_tree, 1) ∧
    orphan_tree[0]? = some ⟨some 1, plain_block 3 2313 3, true⟩ ∧
    select_leaf orphan_tree 1 = .done 0 := by
  decide

/-- Claim C14. For every list of input blocks and whatever the uninitialised memory holds,
tree building returns, and every admitted node whose block height is 0 has the block hash
`GENESIS_BLOCK_HASH`, has no parent and is marked valid; a processed height-0 block with
another hash is not among the admitted blocks. -/
theorem admitted_genesis_nodes (env : Env) (uninit : Nat → blockchain_node)
    (input : List block) :
    ∃ blocknodes vblockc, built_tree env uninit input = .done (blocknodes, vblockc) ∧
      (∀ (k : Nat) (node : blockchain_node), k < vblockc → blocknodes[k]? = some node →
        node.b.height = 0 →
        env.block_hash node.b = GENESIS_BLOCK_HASH ∧ node.parent = none ∧
          node.is_valid = true) ∧
      ∀ b ∈ processed_blocks env input, b.height = 0 →
        env.block_hash b ≠ GENESIS_BLOCK_HASH → b ∉ admitted_blocks blocknodes vblockc := by
  obtain ⟨blocknodes, vblockc, hbuilt, -, hall⟩ := built_tree_admitted env uninit input
  refine ⟨blocknodes, vblockc, hbuilt, ?_, ?_⟩
  · intro k node hk hnode h0
    obtain ⟨h1, h2, -⟩ := hall k node hk hnode
    have hh := ((valid_block_before_tree_eq_one env node.b).mp h1).1
    unfold hash_rule at hh
    rw [if_pos h0] at hh
    exact ⟨hh, (h2 h0).1, (h2 h0).2⟩
  · intro b _ h0 hhash hmem
    rw [built_tree_blocks env uninit input blocknodes vblockc hbuilt] at hmem
    have hv := (List.mem_filter.mp hmem).2
    simp only [ne_eq, decide_not, Bool.not_eq_true', decide_eq_false_iff_not] at hv
    rcases valid_block_before_tree_zero_or_one env b with h | h
    · exact hv h
    · have hh := ((valid_block_before_tree_eq_one env b).mp h).1
      unfold hash_rule at hh
      rw [if_pos h0] at hh
      exact hhash hh

/-- Claim C15. The ancestry-validation loop changes validity flags only, and only from 1 to
0: in the arena it returns every slot has the parent reference and the block it had, and
every node that was invalid is still invalid. -/
theorem validation_pass_only_lowers (env : Env) (n i : Nat)
    (blocknodes result : List blockchain_node)
    (h : validate_nodes_from env n i blocknodes = .done result) :
    result.length = blocknodes.length ∧
    ∀ (k : Nat) (node : blockchain_node), blocknodes[k]? = some node →
      ∃ node' : blockchain_node, result[k]? = some node' ∧
        node'.parent = node.parent ∧ node'.b = node.b ∧
        (node.is_valid = false → node'.is_valid = false) := by
  have hflags := validate_nodes_from_flags env n i blocknodes result h
  refine ⟨hflags.1, ?_⟩
  intro k node hk
  obtain ⟨node', hk', hp, hb, hv⟩ := hflags.2 k node hk
  refine ⟨node', hk', hp, hb, ?_⟩
  intro hfalse
  cases hv' : node'.is_valid with
  | false => rfl
  | true =>
    rw [hv hv'] at hfalse
    exact Bool.noConfusion hfalse

/-- Witness for claim C15: an orphan for which `valid_node_after_tree` returns 1 stays
invalid, a node with an unknown spend is invalidated, parents and blocks stay. -/
theorem validation_pass_only_lowers_witness :
    validate_nodes_from toy_env 3 0 pass_nodes = .done pass_result ∧
    valid_node_after_tree toy_env pass_nodes ⟨none, plain_block 1 2313 2, false⟩ = .done 1 ∧
    (pass_result.length = pass_nodes.length ∧
    ∀ (k : Nat) (node : blockchain_node), pass_nodes[k]? = some node →
      ∃ node' : blockchain_node, pass_result[k]? = some node' ∧
        node'.parent = node.parent ∧ node'.b = node.b ∧
        (node.is_valid = false → node'.is_valid = false)) :=
  ⟨by decide, by decide,
    validation_pass_only_lowers toy_env 3 0 pass_nodes pass_result (by decide)⟩

/-- Counterexample to claim C16 as stated: the balance is an `int`, and adding 1 to the
balance 2147483647 leaves -2147483648, not the sum 2147483648. -/
theorem balance_add_overflows :
    (balance_keys full_balances).Nodup ∧
    balance_of full_balances ⟨1, 1⟩ = 2147483647 ∧
    balance_add full_balances ⟨1, 1⟩ 1 = [⟨⟨1, 1⟩, -2147483648⟩] ∧
    balance_of (balance_add full_balances ⟨1, 1⟩ 1) ⟨1, 1⟩ ≠
      balance_of full_balances ⟨1, 1⟩ + 1 := by
  decide

/-- Claim C16, amended. For a balance list without duplicate keys and an `int` `amount`,
`balance_add` (with `malloc` succeeding) maps `pubkey` to its previous balance plus `amount`
in `int` arithmetic: the exact sum whenever that sum is in the range of `int`, and the sum
reduced modulo 2^32 into that range otherwise. A key not yet present (compared by equality
of both `x` and `y`) counts as 0 and gets a new entry holding `amount`; a key already
present keeps the list of keys; every other key keeps its balance; and the list still has
no duplicate key. -/
theorem balance_add_updates_int_balance (balances : List balance) (pubkey : ecdsa_pubkey)
    (amount : Int) (hnodup : (balance_keys balances).Nodup) (hamount : is_int amount) :
    balance_of (balance_add balances pubkey amount) pubkey =
      int_wrap (balance_of balances pubkey + amount) ∧
    (is_int (balance_of balances pubkey + amount) →
      balance_of (balance_add balances pubkey amount) pubkey =
        balance_of balances pubkey + amount) ∧
    (pubkey ∉ balance_keys balances →
      balance_of balances pubkey = 0 ∧
      balance_add balances pubkey amount = ⟨pubkey, amount⟩ :: balances) ∧
    (pubkey ∈ balance_keys balances →
      balance_keys (balance_add balances pubkey amount) = balance_keys balances) ∧
    (∀ other, other ≠ pubkey →
      balance_of (balance_add balances pubkey amount) other = balance_of balances other) ∧
    (balance_keys (balance_add balances pubkey amount)).Nodup :=
  balance_add_entry balances pubkey amount hnodup hamount

/-- Witness for the amended claim C16: a debit of a key in the list, whose sum is in the
range of `int`, and a credit to a new key. -/
theorem balance_add_updates_int_balance_witness :
    (balance_keys sample_balances).Nodup ∧ is_int (-1) ∧
    is_int (balance_of sample_balances ⟨2, 7⟩ + (-1)) ∧
    balance_add sample_balances ⟨2, 7⟩ (-1) = [⟨⟨1, 1⟩, 1⟩, ⟨⟨2, 7⟩, 4⟩] ∧
    balance_add sample_balances ⟨2, 8⟩ 1 = [⟨⟨2, 8⟩, 1⟩, ⟨⟨1, 1⟩, 1⟩, ⟨⟨2, 7⟩, 5⟩] ∧
    balance_of (balance_add sample_balances ⟨2, 7⟩ (-1)) ⟨2, 7⟩ =
      balance_of sample_balances ⟨2, 7⟩ + (-1) :=
  ⟨by decide, by decide, by decide, by decide, by decide,
    (balance_add_updates_int_balance sample_balances ⟨2, 7⟩ (-1) (by decide)
      (by decide)).2.1 (by decide)⟩

/-- Counterexample to claim C17 as stated: with a `qsort` that sorts as the C standard asks
but is not stable, two blocks of height 1 are processed in the reverse of their input
order. -/
theorem unstable_sort_swaps_equal_heights :
    sorts_with unstable_env compare_by_height ∧
    processed_blocks unstable_env twin_input =
      [plain_block 1 GENESIS_BLOCK_HASH 3, plain_block 1 GENESIS_BLOCK_HASH 2] ∧
    (processed_blocks unstable_env twin_input).Perm twin_input ∧
    (processed_blocks unstable_env twin_input).Pairwise (fun a b => a.height ≤ b.height) ∧
    ¬ keeps_input_order twin_input (processed_blocks unstable_env twin_input) :=
  ⟨unstable_env_sorts, by decide, (unstable_env_sorts twin_input).1,
    (processed_blocks_ascending unstable_env twin_input unstable_env_sorts).2,
    fun h => by
      have h1 := h 1
      revert h1
      decide⟩

/-- Claim C17, amended. With a `qsort` that sorts for `compare_by_height`, the blocks are
handed to the tree builder as a permutation of the input in non-decreasing height order;
`compare_by_height` is 0 exactly on equal heights, so the order of blocks of equal height is
whatever `qsort` leaves. -/
theorem processed_blocks_sorted_by_height (env : Env) (input : List block)
    (hq : sorts_with env compare_by_height) :
    (processed_blocks env input).Perm input ∧
    (processed_blocks env input).Pairwise (fun a b => a.height ≤ b.height) ∧
    (∀ b1 b2 : block, compare_by_height b1 b2 = 0 ↔ b1.height = b2.height) :=
  ⟨(processed_blocks_ascending env input hq).1, (processed_blocks_ascending env input hq).2,
    compare_by_height_eq_zero⟩

/-- Witness for the amended claim C17, at the `qsort` that is not stable. -/
theorem processed_blocks_sorted_by_height_witness :
    sorts_with unstable_env compare_by_height ∧
    ((processed_blocks unstable_env twin_input).Perm twin_input ∧
    (processed_blocks unstable_env twin_input).Pairwise (fun a b => a.height ≤ b.height) ∧
    (∀ b1 b2 : block, compare_by_height b1 b2 = 0 ↔ b1.height = b2.height)) :=
  ⟨unstable_env_sorts,
    processed_blocks_sorted_by_height unstable_env twin_input unstable_env_sorts⟩

/-- Claim C18. For every array whose admitted nodes stand in non-decreasing block-height
order, the leaf chosen by the descending-index scan has a block height greater than or equal
to the height of every node whose parent path is fully valid; the scan does choose a leaf
when the parent references of every admitted node lead to a root and some node has a fully
valid path. -/
theorem select_leaf_highest (blocknodes : List blockchain_node) (vblockc : Nat)
    (hsorted : heights_ascending blocknodes vblockc) :
    (∀ (k : Nat) (leaf : blockchain_node),
      select_leaf blocknodes vblockc = .done (Int.ofNat k) → blocknodes[k]? = some leaf →
      ∀ (j : Nat) (node : blockchain_node), j < vblockc → fully_valid blocknodes j = true →
        blocknodes[j]? = some node → node.b.height ≤ leaf.b.height) ∧
    ((∀ j, j < vblockc → reaches_root blocknodes j = true) →
      (∃ j, j < vblockc ∧ fully_valid blocknodes j = true) →
      ∃ k, select_leaf blocknodes vblockc = .done (Int.ofNat k)) :=
  select_leaf_highest_of_ascending blocknodes vblockc hsorted

/-- Witness for claim C18: in `sample_nodes` the chosen leaf is slot 2, of height 1, and no
slot with a fully valid path is higher. -/
theorem select_leaf_highest_witness :
    heights_ascending sample_nodes 4 ∧
    select_leaf sample_nodes 4 = .done (Int.ofNat 2) ∧
    (∀ (j : Nat) (node : blockchain_node), j < 4 → fully_valid sample_nodes j = true →
      sample_nodes[j]? = some node →
      node.b.height ≤ (plain_block 1 GENESIS_BLOCK_HASH 3).height) :=
  ⟨by decide, by decide,
    (select_leaf_highest sample_nodes 4 (by decide)).1 2
      ⟨some 0, plain_block 1 GENESIS_BLOCK_HASH 3, true⟩ (by decide) (by decide)⟩

/-- Claim C19, evaluated at a failing input. On `orphan_input` the selected chain ends in
the never-written slot 1: its root has no parent and counts as valid, but it is a block of
height 9 whose hash is not `GENESIS_BLOCK_HASH`, and it is none of the input blocks. -/
theorem selected_root_not_genesis :
    selected_chain toy_env orphan_memory orphan_input =
      .done [⟨some 1, plain_block 3 2313 3, true⟩, ⟨none, plain_block 9 0 9, true⟩] ∧
    fully_valid orphan_tree 0 = true ∧
    (⟨none, plain_block 9 0 9, true⟩ : blockchain_node).parent = none ∧
    (plain_block 9 0 9).height ≠ 0 ∧
    toy_env.block_hash (plain_block 9 0 9) ≠ GENESIS_BLOCK_HASH ∧
    (∀ b ∈ orphan_input, b ≠ plain_block 9 0 9) := by
  decide

end Balances
